import Mathlib

/-!
Verification development for the output-file resolution and staging engine of
`src/features/file_download_feature.py`.

Strings of the Python program are modelled as `List Char`.  The functions of
the source file are translated definition by definition.  External
collaborators that are not part of the repository (the Python `re` standard
library, `shutil.copyfile`, the filesystem, `utils.*` helper modules that are
absent from `src/`) are modelled explicitly; each such definition carries a
doc comment starting with `Modelled from the spec:`.
-/

set_option maxRecDepth 10000

abbrev Str := List Char

/-- Capture-group environment of one regex match: pairs of group index and
captured text, in capture order (a later entry for the same index is the more
recent capture, matching Python semantics where the last repetition wins). -/
abbrev GEnv := List (Nat × Str)

/-- One way a regex can match a prefix of a string: number of consumed
characters together with the captures made. -/
abbrev PM := Nat × GEnv

/-- Python `\w` for the ASCII range: letters, digits and underscore. -/
def wordChar (c : Char) : Bool :=
  c.isAlpha || c.isDigit || c = '_'

/-- Character-class data: `word`/`digit` stand for `\w`/`\d` items, `dot`
for the any-character-but-newline class, `chars` for literal members and
`ranges` for `a-z` style ranges. -/
structure ClsSpec where
  word : Bool
  digit : Bool
  dot : Bool
  chars : List Char
  ranges : List (Char × Char)
deriving DecidableEq, Repr

/-- Whether a character belongs to the class. -/
def ClsSpec.matchesCh (k : ClsSpec) (c : Char) : Bool :=
  (k.word && wordChar c) ||
  (k.digit && c.isDigit) ||
  (k.dot && !(c = '\n')) ||
  k.chars.contains c ||
  k.ranges.any (fun r => r.1 ≤ c && c ≤ r.2)

/-- Regex abstract syntax: the constructs used by the directive grammar of
the source file (literal characters, classes, sequencing, alternation,
numbered capture groups, greedy `+` and `?`). -/
inductive Rx where
  | eps : Rx
  | ch : Char → Rx
  | cls : ClsSpec → Rx
  | seq : Rx → Rx → Rx
  | alt : Rx → Rx → Rx
  | grp : Nat → Rx → Rx
  | plus : Rx → Rx
  | opt : Rx → Rx
deriving DecidableEq, Repr

/-- Modelled from the spec: the enumeration of the ways a greedy `+` can
match, in Python backtracking priority order (more repetitions first).  An
iteration that consumes nothing is discarded; every pattern the program
repeats consumes at least one character, so this matches Python.  The fuel
argument bounds the number of repetitions; `s.length + 1` is always enough
because every repetition consumes at least one character. -/
def plusIter (inner : Str → List PM) : Nat → Str → List PM
  | 0, _ => []
  | f + 1, s =>
      (inner s).flatMap (fun p =>
        if p.1 = 0 then []
        else
          ((plusIter inner f (s.drop p.1)).map
            (fun q => (p.1 + q.1, p.2 ++ q.2))) ++ [p])

/-- Modelled from the spec: the list of all ways `r` can match a front
portion of `s`, in Python backtracking priority order (the head is the match
Python's `re` engine reports: greedy quantifiers take the longest
alternative first, alternation prefers its left branch). -/
def matchesRx : Rx → Str → List PM
  | .eps, _ => [(0, [])]
  | .ch c, s =>
      match s with
      | [] => []
      | a :: _ => if a = c then [(1, [])] else []
  | .cls k, s =>
      match s with
      | [] => []
      | a :: _ => if k.matchesCh a then [(1, [])] else []
  | .seq r1 r2, s =>
      (matchesRx r1 s).flatMap (fun p =>
        (matchesRx r2 (s.drop p.1)).map (fun q => (p.1 + q.1, p.2 ++ q.2)))
  | .alt r1 r2, s => matchesRx r1 s ++ matchesRx r2 s
  | .grp i r, s =>
      (matchesRx r s).map (fun p => (p.1, p.2 ++ [(i, s.take p.1)]))
  | .plus r, s => plusIter (fun t => matchesRx r t) (s.length + 1) s
  | .opt r, s => matchesRx r s ++ [(0, [])]

/-- A reported regex match: start position, length, captures. -/
abbrev PyMatch := Nat × Nat × GEnv

/-- Modelled from the spec: Python `re.finditer` — scan positions left to
right, report the backtracking-preferred match at the leftmost matching
position, continue after the reported match (advancing one position past a
zero-width match), repeatedly, yielding all non-overlapping matches. -/
def scanFrom (r : Rx) (text : Str) : Nat → Nat → List PyMatch
  | 0, _ => []
  | f + 1, i =>
      match (matchesRx r (text.drop i)).head? with
      | some p =>
          (i, p.1, p.2) ::
            (if p.1 = 0 then
              (if i < text.length then scanFrom r text f (i + 1) else [])
            else scanFrom r text f (i + p.1))
      | none => if i < text.length then scanFrom r text f (i + 1) else []

/-- Text of capture group `n` of a match (`0` is the whole match); `none`
models Python's `None` for a group that did not participate. -/
def pyGroup (text : Str) (m : PyMatch) (n : Nat) : Option Str :=
  if n = 0 then some ((text.drop m.1).take m.2.1)
  else ((m.2.2.filter (fun e => e.1 = n)).getLast?).map (fun e => e.2)

/-- Modelled from the spec: parsing of a character class body (after `[`),
accumulating class data until the closing `]`. -/
def parseClsItems : Nat → ClsSpec → Str → Option (ClsSpec × Str)
  | 0, _, _ => none
  | f + 1, k, s =>
      match s with
      | [] => none
      | ']' :: rest => some (k, rest)
      | '\\' :: c :: rest =>
          if c = 'w' then parseClsItems f { k with word := true } rest
          else if c = 'd' then parseClsItems f { k with digit := true } rest
          else if c.isAlpha then none
          else parseClsItems f { k with chars := k.chars ++ [c] } rest
      | a :: '-' :: b :: rest =>
          if b = ']' then some ({ k with chars := k.chars ++ [a, '-'] }, rest)
          else parseClsItems f { k with ranges := k.ranges ++ [(a, b)] } rest
      | a :: rest => parseClsItems f { k with chars := k.chars ++ [a] } rest

/-- The empty character class, used as the base for class parsing. -/
def emptyCls : ClsSpec :=
  { word := false, digit := false, dot := false, chars := [], ranges := [] }

/-- Whether a character is a quantifier; a quantifier directly following
another one (lazy or counted repetition) is not supported by the model. -/
def isQuantCh (c : Option Char) : Bool :=
  c = some '+' || c = some '*' || c = some '?'

/-- Modelled from the spec: application of a greedy quantifier following an
atom (`*` is encoded as an optional `+`, which is equivalent for patterns
whose body consumes at least one character). -/
def applyQuant (a : Rx) : Str → Option (Rx × Str)
  | '+' :: rest => if isQuantCh rest.head? then none else some (.plus a, rest)
  | '*' :: rest =>
      if isQuantCh rest.head? then none else some (.opt (.plus a), rest)
  | '?' :: rest => if isQuantCh rest.head? then none else some (.opt a, rest)
  | rest => some (a, rest)

mutual

/-- Modelled from the spec: regex alternation parser.  The `Nat` state is
the number of capture groups opened so far (Python numbers groups by the
position of their opening parenthesis, starting at 1). -/
def parseAltRx : Nat → Nat → Str → Option (Rx × Nat × Str)
  | 0, _, _ => none
  | f + 1, cnt, s =>
      match parseCatRx f cnt s with
      | none => none
      | some (r, cnt1, rest) =>
          match rest with
          | '|' :: rest2 =>
              match parseAltRx f cnt1 rest2 with
              | none => none
              | some (r2, cnt2, rest3) => some (.alt r r2, cnt2, rest3)
          | _ => some (r, cnt1, rest)

/-- Modelled from the spec: regex concatenation parser. -/
def parseCatRx : Nat → Nat → Str → Option (Rx × Nat × Str)
  | 0, _, _ => none
  | f + 1, cnt, s =>
      match s with
      | [] => some (.eps, cnt, [])
      | ')' :: _ => some (.eps, cnt, s)
      | '|' :: _ => some (.eps, cnt, s)
      | _ =>
          match parseAtomRx f cnt s with
          | none => none
          | some (a, cnt1, rest) =>
              match applyQuant a rest with
              | none => none
              | some (a2, rest2) =>
                  match parseCatRx f cnt1 rest2 with
                  | none => none
                  | some (r2, cnt2, rest3) => some (.seq a2 r2, cnt2, rest3)

/-- Modelled from the spec: regex atom parser (group, class, escape, dot or
literal character). -/
def parseAtomRx : Nat → Nat → Str → Option (Rx × Nat × Str)
  | 0, _, _ => none
  | f + 1, cnt, s =>
      match s with
      | [] => none
      | '(' :: rest =>
          match parseAltRx f (cnt + 1) rest with
          | none => none
          | some (r, cnt1, rest1) =>
              match rest1 with
              | ')' :: rest2 => some (.grp (cnt + 1) r, cnt1, rest2)
              | _ => none
      | '[' :: '^' :: _ => none
      | '[' :: rest =>
          match parseClsItems (rest.length + 1) emptyCls rest with
          | none => none
          | some (k, rest1) => some (.cls k, cnt, rest1)
      | '\\' :: c :: rest =>
          if c = 'w' then some (.cls { emptyCls with word := true }, cnt, rest)
          else if c = 'd' then
            some (.cls { emptyCls with digit := true }, cnt, rest)
          else if c.isAlpha then none
          else some (.ch c, cnt, rest)
      | '.' :: rest => some (.cls { emptyCls with dot := true }, cnt, rest)
      | c :: rest =>
          if c = '*' || c = '+' || c = '?' || c = '\x7b' || c = '\x7d' ||
              c = '^' || c = '$' || c = '\\' then none
          else some (.ch c, cnt, rest)

end

/-- Modelled from the spec: Python `re.compile` for the supported fragment;
`none` models a pattern the model does not interpret. -/
def parseRx (pat : Str) : Option Rx :=
  match parseAltRx (2 * pat.length + 2) 0 pat with
  | some (r, _, []) => some r
  | _ => none

/-- Modelled from the spec: Python `re.finditer` — all non-overlapping
matches of the compiled pattern over the text, left to right. -/
def reFinditer (pat text : Str) : List PyMatch :=
  match parseRx pat with
  | none => []
  | some r => scanFrom r text (text.length + 2) 0

/-- Python `str.find(c, i)`: index of the first occurrence of `c` at or
after position `i`, `none` for Python's `-1`. -/
def strFind (s : Str) (c : Char) (i : Nat) : Option Nat :=
  ((s.drop i).findIdx? (fun a => a = c)).map (fun k => k + i)

/-- Numeric value of a digit string. -/
def digitsToNat (ds : Str) : Nat :=
  ds.foldl (fun n c => n * 10 + (c.toNat - '0'.toNat)) 0

/-- The literal token of the directive grammar that stands for the
any-path macro. -/
def anyPathToken : Str := "#any_path".toList

/-- Modelled from the spec: `os_utils.path_sep()` under `re.escape` on a
POSIX host — the forward slash, which `re.escape` leaves unchanged. -/
def escapedSep : Str := ['/']

/-- The replacement text the program substitutes for the any-path token:
one or more separator-led segments of word characters, dots, hyphens or
escaped spaces. -/
def anyPathRegex : Str :=
  '(' :: escapedSep ++ "([\\w.\\-]|(\\\\ ))+)+".toList

/-- The group-number directive prefix: Python's
`re.findall('^#\d+#', output_pattern[regex_start:])` followed by the
extraction of the group number and of `pattern_start` (the index of the
second `#` of the prefix).  `none` when the anchored pattern does not match. -/
def groupPrefixAt (p : Str) (regex_start : Nat) : Option (Nat × Nat) :=
  let ds := (p.drop (regex_start + 1)).takeWhile Char.isDigit
  if ds ≠ [] ∧ (p.drop (regex_start + 1 + ds.length)).head? = some '#' then
    some (digitsToNat ds, regex_start + ds.length + 1)
  else none

/-- The closing-marker scan of `find_matching_files`: repeatedly
`find('#', ...)`, skipping every `#` that begins an occurrence of the
any-path token.  The fuel `p.length + 1` covers the worst case of one probe
per position. -/
def hashScanAux (p : Str) : Nat → Nat → Option Nat
  | 0, _ => none
  | f + 1, i =>
      match strFind p '#' i with
      | none => none
      | some j =>
          if anyPathToken.isPrefixOf (p.drop j) then hashScanAux p f (j + 1)
          else some j

/-- The `regex_end` computation of `find_matching_files`. -/
def find_closing_hash (p : Str) (i : Nat) : Option Nat :=
  hashScanAux p (p.length + 1) i

/-- Python slice `s[a:b]`. -/
def sliceStr (s : Str) (a b : Nat) : Str := (s.take b).drop a

/-- Modelled from the spec: Python `str.replace` — every non-overlapping
occurrence of `pat` replaced by `rep`, left to right. -/
def replaceAllAux (pat rep : Str) : Nat → Str → Str
  | 0, s => s
  | _ + 1, [] => []
  | f + 1, c :: rest =>
      if pat.isPrefixOf (c :: rest) then
        rep ++ replaceAllAux pat rep f ((c :: rest).drop pat.length)
      else c :: replaceAllAux pat rep f rest

/-- Python `s.replace(pat, rep)`. -/
def replaceAll (s pat rep : Str) : Str := replaceAllAux pat rep s.length s

/-- Modelled from the spec: `string_utils.replace(s, t, start, end)` — the
span of `s` from the opening marker at `start` through the closing marker at
`end` (inclusive) replaced by `t`. -/
def stringReplaceSpan (s t : Str) (a b : Nat) : Str :=
  s.take a ++ t ++ s.drop (b + 1)

/-- Python `pat in s` on strings: substring containment. -/
def containsSub (pat : Str) : Str → Bool
  | [] => pat.isEmpty
  | c :: rest => pat.isPrefixOf (c :: rest) || containsSub pat rest

/-- External collaborator of `find_matching_files`:
`file_utils.search_glob` (the glob expander), a module that is not part of
this repository's sources. -/
structure FmfCtx where
  search_glob : Str → Bool → List Str

/-- The directive-handling half of the loop body of `find_matching_files`:
`some new_patterns` when a directive was found and handled (the `continue`
path, pushing one new declaration string per regex match), `none` when there
is no `#` or no closing marker and control falls through to the
literal/wildcard handling.  On a POSIX host (the modelled platform) the
any-path regex of an anchored directive is prefixed with an optional home
shorthand `~?`.  Python raises for a capture-group index the regex does not
define; the model reads such a group as empty instead (no claim concerns
that error path). -/
def fmfDirective (script_output output_pattern : Str)
    (regex_start group_number pattern_start : Nat) : Option (List Str) :=
  match find_closing_hash output_pattern (pattern_start + 1) with
  | none => none
  | some regex_end =>
      some ((reFinditer
          (replaceAll
            (if anyPathToken.isPrefixOf
                  (sliceStr output_pattern (pattern_start + 1) regex_end)
                ∧ regex_start = 0 then
              '~' :: '?' :: sliceStr output_pattern (pattern_start + 1) regex_end
            else sliceStr output_pattern (pattern_start + 1) regex_end)
            anyPathToken anyPathRegex) script_output).map
        (fun m =>
          stringReplaceSpan output_pattern
            ((pyGroup script_output m group_number).getD [])
            regex_start regex_end))

def fmfHandleHash (script_output output_pattern : Str) : Option (List Str) :=
  match strFind output_pattern '#' 0 with
  | none => none
  | some regex_start =>
      match groupPrefixAt output_pattern regex_start with
      | some gp =>
          fmfDirective script_output output_pattern regex_start gp.1 gp.2
      | none =>
          fmfDirective script_output output_pattern regex_start 0 regex_start

/-- The worklist loop of `find_matching_files`: pop the front declaration
string; a handled directive pushes its new strings at the back of the
worklist; otherwise a string without wildcard is emitted as is and a string
with a wildcard is passed whole to the glob expander.  The fuel bounds the
number of iterations (the Python loop can run forever when a match
reintroduces a directive). -/
def fmfLoop (ctx : FmfCtx) (script_output : Str) :
    Nat → List Str → List Str → List Str
  | 0, _, files => files
  | _ + 1, [], files => files
  | fuel + 1, output_pattern :: queue, files =>
      match fmfHandleHash script_output output_pattern with
      | some new_patterns =>
          fmfLoop ctx script_output fuel (queue ++ new_patterns) files
      | none =>
          if output_pattern.contains '*' then
            fmfLoop ctx script_output fuel queue
              (files ++ ctx.search_glob output_pattern
                (containsSub "**".toList output_pattern))
          else fmfLoop ctx script_output fuel queue (files ++ [output_pattern])

/-- The function `find_matching_files(file_pattern, script_output)` of the source,
seeded with the declaration string. -/
def find_matching_files (ctx : FmfCtx) (fuel : Nat)
    (file_pattern script_output : Str) : List Str :=
  fmfLoop ctx script_output fuel [file_pattern] []

/-- A glob expander that never matches; used to instantiate theorems whose
inputs never reach glob expansion. -/
def emptyGlob : FmfCtx := ⟨fun _ _ => []⟩

/-- An entry of `config.output_files`: a literal string, a dict with
optional `path` and `type` values, or a value of any other runtime type. -/
inductive OutFile where
  | str (s : Str)
  | dict (path : Option Str) (ftype : Option Str)
  | other
deriving DecidableEq

/-- The `INLINE_IMAGE_TYPE` constant of the source. -/
def INLINE_IMAGE_TYPE : Str := "inline-image".toList

/-- Modelled from the spec: Python whitespace, for `str.strip` and
`string_utils.is_blank`. -/
def isWsCh (c : Char) : Bool :=
  c = ' ' || c = '\t' || c = '\n' || c = '\r' || c = '\x0b' || c = '\x0c'

/-- Modelled from the spec: Python `str.strip()` — surrounding whitespace
removed from both ends. -/
def stripWs (s : Str) : Str :=
  ((s.dropWhile isWsCh).reverse.dropWhile isWsCh).reverse

/-- Modelled from the spec: `string_utils.is_blank` — `None`, empty, or
whitespace-only. -/
def is_blank : Option Str → Bool
  | none => true
  | some s => s.all isWsCh

/-- The function `_extract_path` of the source: a string entry is returned as is; a dict
entry yields its stripped `path` value unless that value is blank; any other
entry yields nothing. -/
def _extract_path : OutFile → Option Str
  | .str s => some s
  | .dict p _ => if is_blank p then none else p.map stripWs
  | .other => none

/-- The predicate `_ScriptHandler._is_post_finish_path`. -/
def _is_post_finish_path : OutFile → Bool
  | .str _ => true
  | .dict _ t => if t = some INLINE_IMAGE_TYPE then false else true
  | .other => false

/-- The predicate `_ScriptHandler._is_inline_image_path`. -/
def _is_inline_image_path : OutFile → Bool
  | .dict _ t => if t = some INLINE_IMAGE_TYPE then true else false
  | _ => false

/-- The function `substitute_parameter_values` of the source; `fill_parameter_values`
lives in the absent `model.model_helper` module and is therefore passed as a
function. -/
def substitute_parameter_values (subst : Str → Str) (output_files : List Str) :
    List Str :=
  output_files.map subst

/-- The method `_ScriptHandler._get_paths`: filter the declarations by the requested
kind, extract each one's path, drop falsy values (Python `if p` removes
`None` and the empty string), then substitute parameter values. -/
def _get_paths (subst : Str → Str) (pred : OutFile → Bool)
    (output_files : List OutFile) : List Str :=
  substitute_parameter_values subst
    (((output_files.filter pred).filterMap _extract_path).filter
      (fun p => !p.isEmpty))

/-- Python `str.rfind(c)`: index of the last occurrence, `none` for `-1`. -/
def strRfind (s : Str) (c : Char) : Option Nat :=
  (s.reverse.findIdx? (fun a => a = c)).map (fun k => s.length - 1 - k)

/-- The method `InlineImageListener.on_next`: the carried-over partial line is
prepended to the chunk; without a newline everything is buffered; otherwise
the text is split at the last newline, the remainder is carried forward, and
the non-empty complete-lines portion is processed.  Returns the new buffer
and the list of text blocks handed to `prepare_images` (empty or a
singleton). -/
def on_next (last_buffer chunk : Str) : Str × List Str :=
  let output := last_buffer ++ chunk
  if output.contains '\n' then
    match strRfind output '\n' with
    | some last_newline_index =>
        (output.drop (last_newline_index + 1),
          if (output.take last_newline_index).isEmpty then []
          else [output.take last_newline_index])
    | none => (output, [])
  else (output, [])

/-- The method `InlineImageListener.on_close`: any remaining buffered text is processed
once and the buffer is cleared. -/
def on_close (last_buffer : Str) : Str × List Str :=
  if last_buffer.isEmpty then (last_buffer, []) else ([], [last_buffer])

/-- Feeding a sequence of chunks through `on_next`, collecting the processed
blocks in order. -/
def runChunks : Str → List Str → Str × List Str
  | st, [] => (st, [])
  | st, c :: rest =>
      let r := on_next st c
      let r2 := runChunks r.1 rest
      (r2.1, r.2 ++ r2.2)

/-- A whole stream: all chunks, then the close signal. -/
def runStream (chunks : List Str) : List Str :=
  let r := runChunks [] chunks
  r.2 ++ (on_close r.1).2

/-- External collaborators of `_prepare_downloadable_files`: the glob
expander, path normalization against the working directory
(`file_utils.normalize_path`), the filesystem predicates `os.path.exists`
and `os.path.isdir`, the handler's download folder, unique-name computation
(`create_unique_filename`, `none` modelling `FileExistsException`) and the
success of `shutil.copyfile`. -/
structure PrepCtx where
  glob : FmfCtx
  normalize : Str → Str
  fs_exists : Str → Bool
  fs_isdir : Str → Bool
  download_folder : Str
  unique_name : Str → Option Str
  copy_ok : Str → Str → Bool

/-- Modelled from the spec: `os.path.basename` — the part after the last
path separator. -/
def basename (p : Str) : Str :=
  match strRfind p '/' with
  | some i => p.drop (i + 1)
  | none => p

/-- Lookup in an association list used to model a Python dict (every key is
bound at most once). -/
def lookupA (m : List (Str × Str)) (k : Str) : Option Str :=
  (m.find? (fun e => e.1 = k)).map (fun e => e.2)

/-- The candidate-filtering loop of `_prepare_downloadable_files`: each
matched file is normalized against the working directory and appended to
`correct_files` unless the normalized path does not exist, is a directory,
or is already present. -/
def addCandidates (ctx : PrepCtx) : List Str → List Str → List Str
  | correct_files, [] => correct_files
  | correct_files, file :: rest =>
      if !ctx.fs_exists (ctx.normalize file) then
        addCandidates ctx correct_files rest
      else if ctx.fs_isdir (ctx.normalize file) then
        addCandidates ctx correct_files rest
      else if ctx.normalize file ∈ correct_files then
        addCandidates ctx correct_files rest
      else addCandidates ctx (correct_files ++ [ctx.normalize file]) rest

/-- The first half of `_prepare_downloadable_files`: run
`find_matching_files` for every declared output file and filter the
candidates. -/
def collect_correct_files (ctx : PrepCtx) (fuel : Nat)
    (output_files : List Str) (script_output : Str) : List Str :=
  output_files.foldl
    (fun acc f =>
      addCandidates ctx acc (find_matching_files ctx.glob fuel f script_output))
    []

deriving instance DecidableEq for Except

/-- Result of the staging loop: the returned mapping (or the source file
whose copy raised, modelling the uncaught exception of `copyfile`), the
handler's `prepared_files` attribute after the loop, and the copies actually
performed. -/
structure StageOut where
  outcome : Except Str (List (Str × Str))
  prepared : List (Str × Str)
  copies : List (Str × Str)
deriving DecidableEq

/-- The staging loop of `_prepare_downloadable_files`: a file already in
`prepared_files` is returned unchanged; otherwise a unique name is computed
(a `FileExistsException` skips the file), the bytes are copied (`copyfile`
is outside the `try`, so a copy failure raises and aborts the loop, losing
the result mapping but keeping earlier `prepared_files` insertions), and the
mapping is recorded. -/
def stage_files (ctx : PrepCtx) : List (Str × Str) → List Str → StageOut
  | prepared, [] => ⟨.ok [], prepared, []⟩
  | prepared, file :: rest =>
      match lookupA prepared file with
      | some d =>
          ⟨(stage_files ctx prepared rest).outcome.map (fun r => (file, d) :: r),
            (stage_files ctx prepared rest).prepared,
            (stage_files ctx prepared rest).copies⟩
      | none =>
          match ctx.unique_name (ctx.download_folder ++ '/' :: basename file) with
          | none => stage_files ctx prepared rest
          | some download_file =>
              if ctx.copy_ok file download_file then
                ⟨(stage_files ctx ((file, download_file) :: prepared) rest).outcome.map
                    (fun r => (file, download_file) :: r),
                  (stage_files ctx ((file, download_file) :: prepared) rest).prepared,
                  (file, download_file) ::
                    (stage_files ctx ((file, download_file) :: prepared) rest).copies⟩
              else ⟨.error file, prepared, []⟩

/-- The method `_ScriptHandler._prepare_downloadable_files`: collect and filter the
candidates, then stage them (an empty candidate list returns the empty
mapping at once). -/
def _prepare_downloadable_files (ctx : PrepCtx) (fuel : Nat)
    (prepared : List (Str × Str)) (output_files : List Str)
    (script_output : Str) : StageOut :=
  if (collect_correct_files ctx fuel output_files script_output).isEmpty then
    ⟨.ok [], prepared, []⟩
  else
    stage_files ctx prepared
      (collect_correct_files ctx fuel output_files script_output)

/-- An inline-image listener: the result models normal return (`ok`) or a
raised exception (`error`). -/
abbrev Listener := Str → Str → Except Unit Unit

/-- The notification loop of `_add_inline_image`: every listener is invoked
in registration order; a raised exception is caught and logged, so the loop
continues either way.  Returns the invocations performed, as
(listener index, original path, download path). -/
def notifyFrom : List Listener → Nat → Str → Str → List (Nat × Str × Str)
  | [], _, _, _ => []
  | l :: rest, k, orig, dl =>
      (k, orig, dl) ::
        (match l orig dl with
         | .ok _ => notifyFrom rest (k + 1) orig dl
         | .error _ => notifyFrom rest (k + 1) orig dl)

/-- The method `_ScriptHandler._add_inline_image`: an already-known original path
returns at once; a new one is recorded (insertion order preserved, matching
the Python dict) and every listener is notified. -/
def _add_inline_image (listeners : List Listener)
    (inline_images : List (Str × Str)) (original_path download_path : Str) :
    List (Str × Str) × List (Nat × Str × Str) :=
  if (lookupA inline_images original_path).isSome then (inline_images, [])
  else
    (inline_images ++ [(original_path, download_path)],
      notifyFrom listeners 0 original_path download_path)

/-- The `for key, value in images.items(): _add_inline_image(key, value)`
loop of `InlineImageListener.prepare_images`, over a list of discovered
(original path, download path) pairs. -/
def process_images (listeners : List Listener) :
    List (Str × Str) → List (Str × Str) →
      List (Str × Str) × List (Nat × Str × Str)
  | images, [] => (images, [])
  | images, (o, d) :: rest =>
      let r1 := _add_inline_image listeners images o d
      let r2 := process_images listeners r1.1 rest
      (r2.1, r1.2 ++ r2.2)

/-- Whether position `j` of `p` begins an occurrence of the any-path token. -/
def anyPathAt (p : Str) (j : Nat) : Bool := anyPathToken.isPrefixOf (p.drop j)

/-- Claim-side description of the closing-marker search: the least index at
or after `i` that holds a `#` not beginning an any-path occurrence. -/
def claimClosing (p : Str) (i : Nat) : Option Nat :=
  if _h : p.length ≤ i then none
  else if p.get? i = some '#' && !anyPathAt p i then some i
  else claimClosing p (i + 1)
termination_by p.length - i

/-- Claim-side description of the split position of the line buffer: index
`i` holds a newline and no later index does. -/
def isLastNl (out : Str) (i : Nat) : Prop :=
  out.get? i = some '\n' ∧
    ∀ k, k < out.length → i < k → out.get? k ≠ some '\n'

instance (out : Str) (i : Nat) : Decidable (isLastNl out i) := by
  unfold isLastNl
  infer_instance

/-- A staging context where everything succeeds, used to witness C2. -/
def c2ctx : PrepCtx :=
  ⟨emptyGlob, id, fun _ => true, fun _ => false, "/dl".toList, some,
    fun _ _ => true⟩

/-- A staging context whose byte copy fails exactly for the source `/a`,
used for the C5 counterexample. -/
def c5ctx : PrepCtx :=
  ⟨emptyGlob, id, fun _ => true, fun _ => false, "/dl".toList, some,
    fun s _ => decide (s ≠ "/a".toList)⟩

/-- A staging context whose unique-name computation always fails, used to
witness the amended C5. -/
def c5wctx : PrepCtx :=
  ⟨emptyGlob, id, fun _ => true, fun _ => false, "/dl".toList,
    fun _ => none, fun _ _ => true⟩

/-- Result of one claim-side worklist step: new declaration strings pushed
back onto the worklist, or resolved paths emitted. -/
inductive StepAction where
  | pushes : List Str → StepAction
  | emits : List Str → StepAction
deriving DecidableEq

/-- Claim-side fallback for a declaration string without a (completed)
directive: a string with no wildcard is emitted as a path as is; a string
with a wildcard is passed whole to glob expansion and every result is
emitted. -/
def claimNoDirective (ctx : FmfCtx) (p : Str) : StepAction :=
  if p.contains '*' then
    .emits (ctx.search_glob p (containsSub "**".toList p))
  else .emits [p]

/-- Claim-side handling of a found directive: the regex body between the
optional group prefix and the claim-side closing marker (the first `#` not
beginning an any-path occurrence), anchored when the body starts with the
any-path token at position zero, with the any-path macro substituted, is
matched against the full text block for all non-overlapping matches; for
each match the original string with the span from the opening marker through
the closing marker replaced by the selected capture group's text is pushed.
With no findable closing marker the string falls back to literal/wildcard
handling. -/
def claimStepDir (ctx : FmfCtx) (script_output p : Str)
    (regex_start group_number pattern_start : Nat) : StepAction :=
  match claimClosing p (pattern_start + 1) with
  | none => claimNoDirective ctx p
  | some regex_end =>
      .pushes ((reFinditer
          (replaceAll
            (if anyPathToken.isPrefixOf (sliceStr p (pattern_start + 1) regex_end)
                ∧ regex_start = 0 then
              '~' :: '?' :: sliceStr p (pattern_start + 1) regex_end
            else sliceStr p (pattern_start + 1) regex_end)
            anyPathToken anyPathRegex) script_output).map
        (fun m =>
          p.take regex_start
            ++ ((pyGroup script_output m group_number).getD [])
            ++ p.drop (regex_end + 1)))

/-- Claim-side description of one full worklist step on a popped declaration
string: no `#` at all means literal/wildcard handling; otherwise the
optional numeric group prefix selects the capture group (default 0) and the
directive is processed per `claimStepDir`. -/
def claimStep (ctx : FmfCtx) (script_output p : Str) : StepAction :=
  match strFind p '#' 0 with
  | none => claimNoDirective ctx p
  | some regex_start =>
      match groupPrefixAt p regex_start with
      | some gp => claimStepDir ctx script_output p regex_start gp.1 gp.2
      | none => claimStepDir ctx script_output p regex_start 0 regex_start

/-- A single item of an any-path segment: a plain character of the class,
or an escaped space (a backslash followed by a space). -/
inductive SegItem where
  | pln : Char → SegItem
  | esc : SegItem
deriving DecidableEq

/-- The characters an item contributes to the path string. -/
def SegItem.chars : SegItem → Str
  | .pln c => [c]
  | .esc => ['\\', ' ']

/-- The character class of the any-path macro body: word characters, dots,
hyphens. -/
def segChar (c : Char) : Bool := wordChar c || c = '.' || c = '-'

/-- A plain item must lie in the class; an escaped space is always fine. -/
def SegItem.ok : SegItem → Bool
  | .pln c => segChar c
  | .esc => true

/-- The text of one path segment. -/
def segStr (sg : List SegItem) : Str := (sg.map SegItem.chars).flatten

/-- The text of an absolute path: one separator-led segment after another. -/
def pathStr (segs : List (List SegItem)) : Str :=
  (segs.map (fun sg => '/' :: segStr sg)).flatten

/-- A well-formed segment: non-empty, all items valid. -/
def goodSeg (sg : List SegItem) : Bool := !sg.isEmpty && sg.all SegItem.ok

/-- A well-formed absolute path: at least one well-formed segment. -/
def goodPath (segs : List (List SegItem)) : Bool :=
  !segs.isEmpty && segs.all goodSeg

/-- Surrounding words before the path: free of separators and of the home
shorthand, so no match can begin inside them. -/
def preOk (pre : Str) : Bool :=
  pre.all (fun c => !(c = '/') && !(c = '~'))

/-- Surrounding words after the path: free of separators, and not opening
with a class character or a backslash that would extend the final
segment. -/
def postOk (post : Str) : Bool :=
  post.all (fun c => !(c = '/')) &&
    (match post with
     | [] => true
     | c :: _ => !segChar c && !(c = '\\'))

/-- No item can start here: the segment run ends. -/
def stopItem : Str → Bool
  | [] => true
  | c :: rest =>
      !segChar c && !(decide (c = '\\') && decide (rest.head? = some ' '))

/-- The character class of the compiled any-path regex. -/
def segCls : ClsSpec :=
  { word := true, digit := false, dot := false, chars := ['.', '-'],
    ranges := [] }

/-- The compiled escaped-space branch of the any-path item. -/
def escRx : Rx :=
  .seq (.grp 3 (.seq (.ch '\\') (.seq (.ch ' ') .eps))) .eps

/-- The compiled any-path segment item (capture group 2). -/
def itemRx : Rx := .grp 2 (.alt (.seq (.cls segCls) .eps) escRx)

/-- The compiled separator-led segment (capture group 1). -/
def g1Rx : Rx := .grp 1 (.seq (.ch '/') (.seq (.plus itemRx) .eps))

/-- The compiled anchored any-path regex: optional home shorthand, then one
or more separator-led segments. -/
def anyPathRx : Rx := .seq (.opt (.ch '~')) (.seq (.plus g1Rx) .eps)

/-- The directive whose regex body is exactly the any-path macro. -/
def anyPathDirective : Str := "##any_path#".toList

def tmpImgSegs : List (List SegItem) :=
  [[.pln 't', .pln 'm', .pln 'p'],
   [.pln 'i', .pln 'm', .pln 'g', .pln '.', .pln 'p', .pln 'n', .pln 'g']]

/-! The theorems of the development follow. -/

theorem strFind_eq_some (p : Str) (c : Char) (i j : Nat)
    (h : strFind p c i = some j) :
    i ≤ j ∧ j < p.length ∧ p.get? j = some c ∧
      ∀ k, i ≤ k → k < j → p.get? k ≠ some c := by
  unfold strFind at h
  obtain ⟨k, hk, hj⟩ :
      ∃ k, (p.drop i).findIdx? (fun a => a = c) = some k ∧ k + i = j := by
    cases hfi : (p.drop i).findIdx? (fun a => a = c) with
    | none => simp [hfi] at h
    | some k => exact ⟨k, rfl, by simpa [hfi] using h⟩
  rw [List.findIdx?_eq_some_iff_getElem] at hk
  obtain ⟨hklt, hq, hprev⟩ := hk
  have hklen : k < p.length - i := by simpa [List.length_drop] using hklt
  subst hj
  refine ⟨Nat.le_add_left _ _, by omega, ?_, ?_⟩
  · rw [List.get?_eq_getElem?]
    have h1 : (p.drop i)[k]? = p[i + k]? := List.getElem?_drop p i k
    have h2 : (p.drop i)[k]? = some ((p.drop i).get ⟨k, hklt⟩) := by
      rw [List.getElem?_eq_some]; exact ⟨hklt, rfl⟩
    have h3 : ((p.drop i).get ⟨k, hklt⟩) = c := of_decide_eq_true hq
    rw [show k + i = i + k by omega, ← h1, h2, h3]
  · intro k' hik' hk'j hget
    have hm : k' - i < k := by omega
    apply hprev (k' - i) hm
    rw [List.get?_eq_getElem?] at hget
    have h1 : (p.drop i)[k' - i]? = p[i + (k' - i)]? := List.getElem?_drop p i (k' - i)
    rw [show i + (k' - i) = k' by omega] at h1
    rw [hget] at h1
    rw [List.getElem?_eq_some] at h1
    obtain ⟨hlt, hval⟩ := h1
    simp [hval]

theorem strFind_eq_none (p : Str) (c : Char) (i : Nat)
    (h : strFind p c i = none) :
    ∀ k, i ≤ k → k < p.length → p.get? k ≠ some c := by
  unfold strFind at h
  have hfi : (p.drop i).findIdx? (fun a => a = c) = none := by
    cases hfi : (p.drop i).findIdx? (fun a => a = c) with
    | none => rfl
    | some k => simp [hfi] at h
  rw [List.findIdx?_eq_none_iff] at hfi
  intro k hik hk hget
  rw [List.get?_eq_getElem?] at hget
  have h1 : (p.drop i)[k - i]? = some c := by
    rw [List.getElem?_drop, show i + (k - i) = k by omega]; exact hget
  have := hfi c (List.getElem?_mem h1)
  simp at this

theorem claimClosing_skip (p : Str) (i : Nat)
    (hne : ¬ (p.get? i = some '#' ∧ anyPathAt p i = false)) (hlt : i < p.length) :
    claimClosing p i = claimClosing p (i + 1) := by
  rw [claimClosing]
  have h1 : ¬ p.length ≤ i := by omega
  have h2 : (decide (p.get? i = some '#') && !anyPathAt p i) = false := by
    by_cases hg : p.get? i = some '#'
    · cases hb : anyPathAt p i with
      | false => exact absurd ⟨hg, hb⟩ hne
      | true => simp [hb]
    · rw [decide_eq_false hg, Bool.false_and]
  rw [dif_neg h1, h2]
  simp

theorem claimClosing_oob (p : Str) (i : Nat) (hge : p.length ≤ i) :
    claimClosing p i = none := by
  rw [claimClosing]; simp [hge]

theorem claimClosing_skip_range (p : Str) (n : Nat) :
    ∀ i j, i ≤ j → j - i ≤ n →
      (∀ k, i ≤ k → k < j → p.get? k ≠ some '#') →
      claimClosing p i = claimClosing p j := by
  induction n with
  | zero =>
      intro i j hij hn _
      exact congrArg (claimClosing p) (by omega : i = j)
  | succ n ih =>
      intro i j hij hn hnohash
      by_cases hend : i = j
      · rw [hend]
      · have hilt : i < j := by omega
        by_cases hge : p.length ≤ i
        · rw [claimClosing_oob p i hge, claimClosing_oob p j (by omega)]
        · have hstep : claimClosing p i = claimClosing p (i + 1) := by
            apply claimClosing_skip p i ?_ (by omega)
            intro hcon
            exact hnohash i (Nat.le_refl i) hilt hcon.1
          rw [hstep]
          exact ih (i + 1) j (by omega) (by omega)
            (fun k hk hkj => hnohash k (by omega) hkj)

theorem hashScanAux_eq_claimClosing (p : Str) :
    ∀ f i, p.length + 1 ≤ f + i → hashScanAux p f i = claimClosing p i := by
  intro f
  induction f with
  | zero => intro i hf; rw [hashScanAux, claimClosing_oob p i (by omega)]
  | succ f ih =>
      intro i hf
      rw [hashScanAux]
      cases hfind : strFind p '#' i with
      | none =>
          show (none : Option Nat) = claimClosing p i
          have hno := strFind_eq_none p '#' i hfind
          by_cases hge : p.length ≤ i
          · rw [claimClosing_oob p i hge]
          · rw [claimClosing_skip_range p (p.length - i) i p.length (by omega)
              (by omega) (fun k hk hkl => hno k hk hkl)]
            rw [claimClosing_oob p p.length (Nat.le_refl _)]
      | some j =>
          show (if anyPathToken.isPrefixOf (p.drop j) = true then
              hashScanAux p f (j + 1) else some j) = claimClosing p i
          obtain ⟨hij, hjlt, hjget, hprev⟩ := strFind_eq_some p '#' i j hfind
          have hskip : claimClosing p i = claimClosing p j :=
            claimClosing_skip_range p (j - i) i j hij (Nat.le_refl _) hprev
          by_cases hpref : anyPathToken.isPrefixOf (p.drop j) = true
          · rw [if_pos hpref]
            have hside : ¬ (p.get? j = some '#' ∧ anyPathAt p j = false) := by
              intro hcon
              have hfalse := hcon.2
              unfold anyPathAt at hfalse
              rw [hfalse] at hpref
              exact absurd hpref (by decide)
            rw [hskip, claimClosing_skip p j hside hjlt]
            exact ih (j + 1) (by omega)
          · rw [if_neg hpref]
            rw [hskip, claimClosing]
            rw [dif_neg (show ¬ p.length ≤ j by omega)]
            have h2 : (decide (p.get? j = some '#') && !anyPathAt p j) = true := by
              have hfa : anyPathAt p j = false := by
                unfold anyPathAt
                cases hb : anyPathToken.isPrefixOf (p.drop j) with
                | false => rfl
                | true => exact absurd hb hpref
              rw [decide_eq_true hjget, hfa]
              rfl
            rw [h2]
            simp

/-- C6: when scanning a declaration string for a directive's closing `#`,
every `#` that begins an occurrence of `#any_path` is skipped, and the first
subsequent `#` that does not is accepted: the scan of the source equals the
least acceptable index. -/
theorem claim_C6_closing_scan (p : Str) (i : Nat) :
    find_closing_hash p i = claimClosing p i :=
  hashScanAux_eq_claimClosing p (p.length + 1) i (by omega)

/-- C7: a directive carrying a numeric group-index prefix, `#1#(foo)-(bar)#`
against the text `foo-bar`, extracts the selected capture group's text
(`foo`), not the whole match; with the prefix absent, group 0 — the whole
match — is extracted. -/
theorem claim_C7_group_index :
    find_matching_files emptyGlob 2 "#1#(foo)-(bar)#".toList "foo-bar".toList
        = ["foo".toList] ∧
    find_matching_files emptyGlob 2 "#(foo)-(bar)#".toList "foo-bar".toList
        = ["foo-bar".toList] := by
  constructor
  · rfl
  · rfl

theorem strRfind_eq_some_of_last (s : Str) (c : Char) (i : Nat)
    (hi : s.get? i = some c)
    (hlast : ∀ k, k < s.length → i < k → s.get? k ≠ some c) :
    strRfind s c = some i := by
  rw [List.get?_eq_getElem?, List.getElem?_eq_some] at hi
  obtain ⟨hilt, hival⟩ := hi
  unfold strRfind
  have hfi : s.reverse.findIdx? (fun a => a = c) = some (s.length - 1 - i) := by
    rw [List.findIdx?_eq_some_iff_getElem]
    have hrl : s.length - 1 - i < s.reverse.length := by
      rw [List.length_reverse]; omega
    refine ⟨hrl, ?_, ?_⟩
    · have := List.getElem_reverse (l := s) (i := s.length - 1 - i) (h := hrl)
      rw [this]
      have : s.length - 1 - (s.length - 1 - i) = i := by omega
      simp only [this]
      exact decide_eq_true hival
    · intro m hm
      have hmlt : m < s.reverse.length := by omega
      have := List.getElem_reverse (l := s) (i := m)
        (h := hmlt)
      rw [this]
      have hkgt : i < s.length - 1 - m := by omega
      have hklt : s.length - 1 - m < s.length := by omega
      have hne := hlast (s.length - 1 - m) hklt hkgt
      rw [List.get?_eq_getElem?] at hne
      intro hdec
      apply hne
      rw [List.getElem?_eq_some]
      exact ⟨hklt, of_decide_eq_true hdec⟩
  rw [hfi, Option.map_some']
  congr 1
  omega

/-- C4: the streaming inline-image flow reassembles lines across chunks:
feeding `"path=/tmp/"` then `"img.png\n"` then closing the stream triggers
exactly one resolution pass, over `"path=/tmp/img.png"`; in general each
chunk is prepended with the carried-over partial line, buffered whole when
it has no newline, otherwise split at the last newline with the remainder
carried forward and the non-empty complete-lines portion processed, and on
close any remaining buffered text is processed exactly once. -/
theorem claim_C4_line_buffering :
    runStream ["path=/tmp/".toList, "img.png\n".toList]
        = ["path=/tmp/img.png".toList]
    ∧ (∀ st chunk, '\n' ∉ st ++ chunk → on_next st chunk = (st ++ chunk, []))
    ∧ (∀ st chunk i, isLastNl (st ++ chunk) i →
        on_next st chunk =
          ((st ++ chunk).drop (i + 1),
            if (st ++ chunk).take i = [] then [] else [(st ++ chunk).take i]))
    ∧ (∀ st, st ≠ [] → on_close st = ([], [st]))
    ∧ on_close ([] : Str) = ([], []) := by
  refine ⟨rfl, ?_, ?_, ?_, rfl⟩
  · intro st chunk hnl
    unfold on_next
    rw [if_neg]
    rw [List.elem_iff]
    exact hnl
  · intro st chunk i hlast
    obtain ⟨hi, hafter⟩ := hlast
    unfold on_next
    have hmem : '\n' ∈ st ++ chunk := by
      rw [List.get?_eq_getElem?] at hi
      exact List.getElem?_mem hi
    rw [if_pos (List.elem_iff.mpr hmem)]
    rw [strRfind_eq_some_of_last (st ++ chunk) '\n' i hi hafter]
    by_cases hemp : (st ++ chunk).take i = []
    · simp [hemp, List.isEmpty_iff]
    · simp only [hemp, if_neg]
      rw [if_neg (by simpa [List.isEmpty_iff] using hemp)]
      simp [hemp]
  · intro st hne
    unfold on_close
    rw [if_neg (by simpa [List.isEmpty_iff] using hne)]

/-- Witness for C4 at a concrete split: `"ab"` buffered, then chunk
`"c\nd"`. -/
theorem claim_C4_line_buffering_witness :
    isLastNl ("ab".toList ++ "c\nd".toList) 3 ∧
      on_next "ab".toList "c\nd".toList = ("d".toList, ["abc".toList]) :=
  ⟨by decide,
    (claim_C4_line_buffering.2.2.1 "ab".toList "c\nd".toList 3
      (by decide)).trans (by decide)⟩

theorem notifyFrom_eq_range (L : List Listener) (o d : Str) :
    ∀ k, notifyFrom L k o d
      = (List.range L.length).map (fun m => (k + m, o, d)) := by
  induction L with
  | nil => intro k; rfl
  | cons l rest ih =>
      intro k
      rw [notifyFrom]
      cases hres : l o d with
      | ok u =>
          rw [ih (k + 1), List.length_cons, List.range_succ_eq_map,
            List.map_cons, List.map_map]
          refine congrArg₂ _ (by simp) ?_
          apply List.map_congr_left
          intro m _
          show (k + 1 + m, o, d) = (k + (m + 1), o, d)
          rw [show k + 1 + m = k + (m + 1) by omega]
      | error u =>
          rw [ih (k + 1), List.length_cons, List.range_succ_eq_map,
            List.map_cons, List.map_map]
          refine congrArg₂ _ (by simp) ?_
          apply List.map_congr_left
          intro m _
          show (k + 1 + m, o, d) = (k + (m + 1), o, d)
          rw [show k + 1 + m = k + (m + 1) by omega]

theorem notifyFrom_zero (L : List Listener) (o d : Str) :
    notifyFrom L 0 o d = (List.range L.length).map (fun m => (m, o, d)) := by
  rw [notifyFrom_eq_range]
  apply List.map_congr_left
  intro m _
  simp

theorem range_map_filter_eq (o d : Str) (j : Nat) :
    ∀ n, j < n →
      ((List.range n).map (fun m => ((m : Nat), o, d))).filter
          (fun t => t.1 = j)
        = [(j, o, d)] := by
  intro n
  induction n with
  | zero => omega
  | succ n ih =>
      intro hj
      rw [List.range_succ, List.map_append, List.filter_append]
      by_cases hcase : j = n
      · subst hcase
        have h1 : ((List.range j).map (fun m => ((m : Nat), o, d))).filter
            (fun t => t.1 = j) = [] := by
          rw [List.filter_eq_nil_iff]
          intro a ha
          rw [List.mem_map] at ha
          obtain ⟨m, hm, rfl⟩ := ha
          rw [List.mem_range] at hm
          simp only [decide_eq_true_eq]
          omega
        rw [h1]
        simp
      · have h2 : (([n] : List Nat).map (fun m => ((m : Nat), o, d))).filter
            (fun t => t.1 = j) = [] := by
          simp only [List.map_cons, List.map_nil, List.filter]
          rw [decide_eq_false (show ¬ (n = j) by omega)]
        rw [ih (by omega), h2, List.append_nil]

theorem lookupA_isSome_iff (m : List (Str × Str)) (k : Str) :
    (lookupA m k).isSome ↔ k ∈ m.map Prod.fst := by
  unfold lookupA
  cases hf : m.find? (fun e => decide (e.1 = k)) with
  | none =>
      simp only [Option.map_none', Option.isSome_none]
      constructor
      · intro h; cases h
      · intro hm
        rw [List.mem_map] at hm
        obtain ⟨e, he, hk⟩ := hm
        have := List.find?_eq_none.mp hf e he
        simp [hk] at this
  | some e =>
      simp only [Option.map_some', Option.isSome_some]
      constructor
      · intro _
        have hp := List.find?_some hf
        have hmem := List.mem_of_find?_eq_some hf
        rw [List.mem_map]
        exact ⟨e, hmem, of_decide_eq_true hp⟩
      · intro _; trivial

theorem process_images_extends (L : List Listener) :
    ∀ (events : List (Str × Str)) st, st <+: (process_images L st events).1 := by
  intro events
  induction events with
  | nil => intro st; exact List.prefix_refl st
  | cons e rest ih =>
      intro st
      obtain ⟨o, d⟩ := e
      rw [process_images]
      unfold _add_inline_image
      by_cases hk : (lookupA st o).isSome = true
      · rw [if_pos hk]
        exact ih st
      · rw [if_neg hk]
        exact (List.prefix_append st [(o, d)]).trans (ih (st ++ [(o, d)]))

theorem process_images_filter (L : List Listener) (j : Nat) (hj : j < L.length) :
    ∀ (events : List (Str × Str)) st,
      (process_images L st events).2.filter (fun t => t.1 = j)
        = ((process_images L st events).1.drop st.length).map
            (fun e => (j, e.1, e.2)) := by
  intro events
  induction events with
  | nil => intro st; simp [process_images, List.drop_length]
  | cons e rest ih =>
      intro st
      obtain ⟨o, d⟩ := e
      rw [process_images]
      unfold _add_inline_image
      by_cases hk : (lookupA st o).isSome = true
      · rw [if_pos hk]
        exact ih st
      · rw [if_neg hk]
        simp only [List.filter_append]
        rw [ih (st ++ [(o, d)])]
        obtain ⟨suf, hsuf⟩ := process_images_extends L rest (st ++ [(o, d)])
        rw [← hsuf]
        rw [List.drop_left]
        rw [List.append_assoc, List.singleton_append]
        rw [List.drop_left]
        rw [notifyFrom_zero, range_map_filter_eq o d j L.length hj]
        rfl

theorem process_images_nodup (L : List Listener) :
    ∀ (events : List (Str × Str)) st, (st.map Prod.fst).Nodup →
      ((process_images L st events).1.map Prod.fst).Nodup := by
  intro events
  induction events with
  | nil => intro st h; exact h
  | cons e rest ih =>
      intro st h
      obtain ⟨o, d⟩ := e
      rw [process_images]
      unfold _add_inline_image
      by_cases hk : (lookupA st o).isSome = true
      · rw [if_pos hk]
        exact ih st h
      · rw [if_neg hk]
        apply ih
        rw [List.map_append]
        simp only [List.map_cons, List.map_nil]
        rw [List.nodup_append]
        refine ⟨h, List.nodup_singleton o, ?_⟩
        intro a ha hb
        simp only [List.mem_singleton] at hb
        subst hb
        have : (lookupA st a).isSome := (lookupA_isSome_iff st a).mpr ha
        rw [this] at hk
        exact hk rfl

theorem process_images_len_invariant (L L2 : List Listener)
    (hlen : L2.length = L.length) :
    ∀ (events : List (Str × Str)) st,
      process_images L2 st events = process_images L st events := by
  intro events
  induction events with
  | nil => intro st; rfl
  | cons e rest ih =>
      intro st
      obtain ⟨o, d⟩ := e
      rw [process_images, process_images]
      unfold _add_inline_image
      by_cases hk : (lookupA st o).isSome = true
      · rw [if_pos hk, if_pos hk, ih st]
      · rw [if_neg hk, if_neg hk, ih (st ++ [(o, d)])]
        rw [notifyFrom_zero, notifyFrom_zero, hlen]

/-- C9: every registered listener is notified of a newly discovered inline
image exactly once per original path, in discovery order (the filtered
notification log of listener `j` equals, pair for pair, the new entries
appended to the inline-image map); the map's original paths stay distinct;
and a listener that raises changes nothing — notification depends only on
how many listeners are registered, so the remaining listeners still receive
the same events. -/
theorem claim_C9_listener_notification (L L2 : List Listener)
    (st events : List (Str × Str)) (j : Nat)
    (hj : j < L.length) (hnd : (st.map Prod.fst).Nodup)
    (hlen : L2.length = L.length) :
    (process_images L st events).2.filter (fun t => t.1 = j)
        = ((process_images L st events).1.drop st.length).map
            (fun e => (j, e.1, e.2))
    ∧ ((process_images L st events).1.map Prod.fst).Nodup
    ∧ process_images L2 st events = process_images L st events :=
  ⟨process_images_filter L j hj events st,
    process_images_nodup L events st hnd,
    process_images_len_invariant L L2 hlen events st⟩

/-- Witness for C9: two listeners, the first of which raises; the raiser
does not prevent the second listener's notifications, and the duplicate
original path `a` is delivered only once. -/
theorem claim_C9_listener_notification_witness :
    (process_images
        [fun _ _ => Except.error (), fun _ _ => Except.ok ()] []
        [("a".toList, "x".toList), ("a".toList, "y".toList),
          ("b".toList, "z".toList)]).2.filter (fun t => t.1 = 1)
      = [(1, "a".toList, "x".toList), (1, "b".toList, "z".toList)] :=
  ((claim_C9_listener_notification
      [fun _ _ => Except.error (), fun _ _ => Except.ok ()]
      [fun _ _ => Except.ok (), fun _ _ => Except.ok ()] []
      [("a".toList, "x".toList), ("a".toList, "y".toList),
        ("b".toList, "z".toList)] 1
      (by decide) (by decide) (by decide)).1).trans (by decide)

theorem lookupA_cons_ne (e : Str × Str) (m : List (Str × Str)) (p : Str)
    (hne : e.1 ≠ p) : lookupA (e :: m) p = lookupA m p := by
  unfold lookupA
  rw [List.find?_cons_of_neg]
  rw [decide_eq_false hne]
  exact Bool.false_ne_true

theorem stage_files_cons_hit (ctx : PrepCtx) (prepared : List (Str × Str))
    (file : Str) (rest : List Str) (d : Str)
    (hfile : lookupA prepared file = some d) :
    stage_files ctx prepared (file :: rest) =
      ⟨(stage_files ctx prepared rest).outcome.map (fun r => (file, d) :: r),
        (stage_files ctx prepared rest).prepared,
        (stage_files ctx prepared rest).copies⟩ := by
  rw [stage_files, hfile]

theorem stage_files_cons_noname (ctx : PrepCtx) (prepared : List (Str × Str))
    (file : Str) (rest : List Str)
    (hfile : lookupA prepared file = none)
    (huniq : ctx.unique_name (ctx.download_folder ++ '/' :: basename file)
      = none) :
    stage_files ctx prepared (file :: rest) = stage_files ctx prepared rest := by
  rw [stage_files, hfile, huniq]

theorem stage_files_cons_copy (ctx : PrepCtx) (prepared : List (Str × Str))
    (file : Str) (rest : List Str) (download_file : Str)
    (hfile : lookupA prepared file = none)
    (huniq : ctx.unique_name (ctx.download_folder ++ '/' :: basename file)
      = some download_file)
    (hcopy : ctx.copy_ok file download_file = true) :
    stage_files ctx prepared (file :: rest) =
      ⟨(stage_files ctx ((file, download_file) :: prepared) rest).outcome.map
          (fun r => (file, download_file) :: r),
        (stage_files ctx ((file, download_file) :: prepared) rest).prepared,
        (file, download_file) ::
          (stage_files ctx ((file, download_file) :: prepared) rest).copies⟩ := by
  rw [stage_files, hfile, huniq]
  simp only [hcopy, if_true]

theorem stage_files_cons_copyfail (ctx : PrepCtx) (prepared : List (Str × Str))
    (file : Str) (rest : List Str) (download_file : Str)
    (hfile : lookupA prepared file = none)
    (huniq : ctx.unique_name (ctx.download_folder ++ '/' :: basename file)
      = some download_file)
    (hcopy : ctx.copy_ok file download_file = false) :
    stage_files ctx prepared (file :: rest)
      = ⟨.error file, prepared, []⟩ := by
  rw [stage_files, hfile, huniq]
  simp only [hcopy, Bool.false_eq_true, if_false]

theorem stage_files_memo (ctx : PrepCtx) (files : List Str) :
    ∀ prepared p d, lookupA prepared p = some d →
      (∀ res, (stage_files ctx prepared files).outcome = .ok res →
          lookupA res p = if p ∈ files then some d else none)
      ∧ lookupA (stage_files ctx prepared files).prepared p = some d
      ∧ ∀ q, (p, q) ∉ (stage_files ctx prepared files).copies := by
  induction files with
  | nil =>
      intro prepared p d hmem
      rw [stage_files]
      refine ⟨?_, hmem, by simp⟩
      intro res hres
      cases hres
      simp [lookupA]
  | cons file rest ih =>
      intro prepared p d hmem
      cases hfile : lookupA prepared file with
      | some dd =>
          rw [stage_files_cons_hit ctx prepared file rest dd hfile]
          by_cases hpf : file = p
          · subst hpf
            rw [hmem] at hfile
            injection hfile with hdd
            subst hdd
            obtain ⟨ih1, ih2, ih3⟩ := ih prepared file d hmem
            refine ⟨?_, ih2, ih3⟩
            intro res hres
            cases hout : (stage_files ctx prepared rest).outcome with
            | error e =>
                rw [hout] at hres
                simp only [Except.map] at hres
                cases hres
            | ok res' =>
                rw [hout] at hres
                simp only [Except.map] at hres
                cases hres
                rw [if_pos (List.mem_cons_self file rest)]
                unfold lookupA
                rw [List.find?_cons_of_pos _ (by simp)]
                rfl
          · have hpf' : file ≠ p := hpf
            have hiff : p ∈ file :: rest ↔ p ∈ rest := by
              rw [List.mem_cons]
              constructor
              · rintro (h | h)
                · exact absurd h.symm hpf'
                · exact h
              · exact Or.inr
            obtain ⟨ih1, ih2, ih3⟩ := ih prepared p d hmem
            refine ⟨?_, ih2, ih3⟩
            intro res hres
            cases hout : (stage_files ctx prepared rest).outcome with
            | error e =>
                rw [hout] at hres
                simp only [Except.map] at hres
                cases hres
            | ok res' =>
                rw [hout] at hres
                simp only [Except.map] at hres
                cases hres
                rw [lookupA_cons_ne (file, dd) res' p hpf']
                rw [ih1 res' hout, if_congr hiff rfl rfl]
      | none =>
          have hpf : file ≠ p := by
            intro h
            rw [h, hmem] at hfile
            cases hfile
          have hiff : p ∈ file :: rest ↔ p ∈ rest := by
            rw [List.mem_cons]
            constructor
            · rintro (h | h)
              · exact absurd h.symm hpf
              · exact h
            · exact Or.inr
          cases huniq : ctx.unique_name
              (ctx.download_folder ++ '/' :: basename file) with
          | none =>
              rw [stage_files_cons_noname ctx prepared file rest hfile huniq]
              obtain ⟨ih1, ih2, ih3⟩ := ih prepared p d hmem
              refine ⟨?_, ih2, ih3⟩
              intro res hres
              rw [ih1 res hres, if_congr hiff rfl rfl]
          | some download_file =>
              by_cases hcopy : ctx.copy_ok file download_file = true
              · rw [stage_files_cons_copy ctx prepared file rest download_file
                  hfile huniq hcopy]
                have hmem2 : lookupA ((file, download_file) :: prepared) p
                    = some d := (lookupA_cons_ne _ _ _ hpf).trans hmem
                obtain ⟨ih1, ih2, ih3⟩ :=
                  ih ((file, download_file) :: prepared) p d hmem2
                refine ⟨?_, ih2, ?_⟩
                · intro res hres
                  cases hout : (stage_files ctx
                      ((file, download_file) :: prepared) rest).outcome with
                  | error e =>
                      rw [hout] at hres
                      simp only [Except.map] at hres
                      cases hres
                  | ok res' =>
                      rw [hout] at hres
                      simp only [Except.map] at hres
                      cases hres
                      rw [lookupA_cons_ne (file, download_file) res' p hpf]
                      rw [ih1 res' hout, if_congr hiff rfl rfl]
                · intro q hq
                  simp only [List.mem_cons] at hq
                  rcases hq with hq | hq
                  · exact hpf (congrArg Prod.fst hq).symm
                  · exact ih3 q hq
              · have hcopy' : ctx.copy_ok file download_file = false := by
                  cases hcb : ctx.copy_ok file download_file
                  · rfl
                  · exact absurd hcb hcopy
                rw [stage_files_cons_copyfail ctx prepared file rest
                  download_file hfile huniq hcopy']
                refine ⟨?_, hmem, by simp⟩
                intro res hres
                cases hres

/-- C2: staging is idempotent per source path per execution — once a source
path is recorded in the handler's prepared-files map, any later run of
`_prepare_downloadable_files` that yields that path returns the identical
staged path in its result mapping, never copies it again, and never rebinds
it to a new name. -/
theorem claim_C2_staging_idempotent (ctx : PrepCtx) (fuel : Nat)
    (prepared : List (Str × Str)) (output_files : List Str)
    (script_output p d : Str) (h : lookupA prepared p = some d) :
    (∀ res,
      (_prepare_downloadable_files ctx fuel prepared output_files
          script_output).outcome = .ok res →
        lookupA res p =
          if p ∈ collect_correct_files ctx fuel output_files script_output
          then some d else none)
    ∧ lookupA (_prepare_downloadable_files ctx fuel prepared output_files
        script_output).prepared p = some d
    ∧ ∀ q, (p, q) ∉ (_prepare_downloadable_files ctx fuel prepared
        output_files script_output).copies := by
  unfold _prepare_downloadable_files
  by_cases hemp :
      (collect_correct_files ctx fuel output_files script_output).isEmpty
        = true
  · rw [if_pos hemp]
    refine ⟨?_, h, by simp⟩
    intro res hres
    cases hres
    rw [List.isEmpty_iff.mp hemp]
    simp [lookupA]
  · rw [if_neg hemp]
    exact stage_files_memo ctx _ prepared p d h

/-- Witness for C2: `/a` is already staged as `/dl/old`; re-resolving a
batch containing `/a` keeps the identical staged path. -/
theorem claim_C2_staging_idempotent_witness :
    lookupA [("/a".toList, "/dl/old".toList)] "/a".toList
        = some "/dl/old".toList ∧
    lookupA (_prepare_downloadable_files c2ctx 2
        [("/a".toList, "/dl/old".toList)] ["/a".toList, "/b".toList]
        []).prepared "/a".toList = some "/dl/old".toList :=
  ⟨by decide,
    (claim_C2_staging_idempotent c2ctx 2 [("/a".toList, "/dl/old".toList)]
      ["/a".toList, "/b".toList] [] "/a".toList "/dl/old".toList
      (by decide)).2.1⟩

/-- C5 counterexample: `copyfile` sits outside the `try` in the source, so a
failing byte copy does not skip only that one file.  Staging the batch
`[/a, /b]` in a context where the copy of `/a` fails aborts the whole loop:
`/b` is never staged, no mapping is returned, and the claim's "the remaining
files of the batch are still staged and the operation does not abort" fails
at this input. -/
theorem claim_C5_copy_failure_counterexample :
    (stage_files c5ctx [] ["/a".toList, "/b".toList]).outcome
        = .error "/a".toList
    ∧ lookupA (stage_files c5ctx [] ["/a".toList, "/b".toList]).prepared
        "/b".toList = none
    ∧ (stage_files c5ctx [] ["/a".toList, "/b".toList]).copies = [] := by
  refine ⟨rfl, rfl, rfl⟩

/-- C5 amended: the failure that is logged and skipped per file is the
unique-staged-name computation (`FileExistsException`): it skips exactly
that file and the batch continues; a failure while copying the bytes is not
caught — it aborts the staging loop (keeping earlier mappings). -/
theorem claim_C5_failure_isolation (ctx : PrepCtx)
    (prepared : List (Str × Str)) (file : Str) (rest : List Str)
    (hmiss : lookupA prepared file = none) :
    (ctx.unique_name (ctx.download_folder ++ '/' :: basename file) = none →
      stage_files ctx prepared (file :: rest) = stage_files ctx prepared rest)
    ∧ (∀ download_file,
        ctx.unique_name (ctx.download_folder ++ '/' :: basename file)
          = some download_file →
        ctx.copy_ok file download_file = false →
        stage_files ctx prepared (file :: rest)
          = ⟨.error file, prepared, []⟩) :=
  ⟨fun huniq => stage_files_cons_noname ctx prepared file rest hmiss huniq,
    fun df huniq hcopy =>
      stage_files_cons_copyfail ctx prepared file rest df hmiss huniq hcopy⟩

/-- Witness for the amended C5: a failing unique-name computation for `/a`
skips `/a` and continues with `/b`. -/
theorem claim_C5_failure_isolation_witness :
    lookupA [] "/a".toList = none ∧
    stage_files c5wctx [] ["/a".toList, "/b".toList]
      = stage_files c5wctx [] ["/b".toList] :=
  ⟨rfl,
    (claim_C5_failure_isolation c5wctx [] "/a".toList ["/b".toList] rfl).1
      rfl⟩

theorem addCandidates_mem (ctx : PrepCtx) :
    ∀ (cand acc : List Str) (x : Str),
      x ∈ addCandidates ctx acc cand ↔
        x ∈ acc ∨ (x ∈ cand.map ctx.normalize ∧ ctx.fs_exists x = true ∧
          ctx.fs_isdir x = false) := by
  intro cand
  induction cand with
  | nil => intro acc x; simp [addCandidates]
  | cons file rest ih =>
      intro acc x
      rw [addCandidates]
      rw [List.map_cons]
      by_cases hex : ctx.fs_exists (ctx.normalize file) = true
      · by_cases hdir : ctx.fs_isdir (ctx.normalize file) = true
        · rw [if_neg (by simp [hex]), if_pos hdir, ih]
          constructor
          · rintro (h | ⟨hm, hP⟩)
            · exact Or.inl h
            · exact Or.inr ⟨List.mem_cons_of_mem _ hm, hP⟩
          · rintro (h | ⟨hm, hP⟩)
            · exact Or.inl h
            · rcases List.mem_cons.mp hm with hm | hm
              · subst hm; rw [hdir] at hP; cases hP.2
              · exact Or.inr ⟨hm, hP⟩
        · by_cases hacc : ctx.normalize file ∈ acc
          · rw [if_neg (by simp [hex]), if_neg hdir, if_pos hacc, ih]
            constructor
            · rintro (h | ⟨hm, hP⟩)
              · exact Or.inl h
              · exact Or.inr ⟨List.mem_cons_of_mem _ hm, hP⟩
            · rintro (h | ⟨hm, hP⟩)
              · exact Or.inl h
              · rcases List.mem_cons.mp hm with hm | hm
                · subst hm; exact Or.inl hacc
                · exact Or.inr ⟨hm, hP⟩
          · rw [if_neg (by simp [hex]), if_neg hdir, if_neg hacc, ih]
            have hdir' : ctx.fs_isdir (ctx.normalize file) = false := by
              cases hb : ctx.fs_isdir (ctx.normalize file)
              · rfl
              · exact absurd hb hdir
            constructor
            · rintro (h | ⟨hm, hP⟩)
              · rcases List.mem_append.mp h with h | h
                · exact Or.inl h
                · rcases List.mem_singleton.mp h with rfl
                  exact Or.inr ⟨List.mem_cons_self _ _, hex, hdir'⟩
              · exact Or.inr ⟨List.mem_cons_of_mem _ hm, hP⟩
            · rintro (h | ⟨hm, hP⟩)
              · exact Or.inl (List.mem_append.mpr (Or.inl h))
              · rcases List.mem_cons.mp hm with hm | hm
                · subst hm
                  exact Or.inl (List.mem_append.mpr (Or.inr (List.mem_singleton.mpr rfl)))
                · exact Or.inr ⟨hm, hP⟩
      · have hex' : ctx.fs_exists (ctx.normalize file) = false := by
          cases hb : ctx.fs_exists (ctx.normalize file)
          · rfl
          · exact absurd hb hex
        rw [if_pos (by simp [hex']), ih]
        constructor
        · rintro (h | ⟨hm, hP⟩)
          · exact Or.inl h
          · exact Or.inr ⟨List.mem_cons_of_mem _ hm, hP⟩
        · rintro (h | ⟨hm, hP⟩)
          · exact Or.inl h
          · rcases List.mem_cons.mp hm with hm | hm
            · subst hm; rw [hex'] at hP; cases hP.1
            · exact Or.inr ⟨hm, hP⟩

theorem addCandidates_nodup (ctx : PrepCtx) :
    ∀ (cand acc : List Str), acc.Nodup → (addCandidates ctx acc cand).Nodup := by
  intro cand
  induction cand with
  | nil => intro acc h; exact h
  | cons file rest ih =>
      intro acc h
      rw [addCandidates]
      by_cases hex : ctx.fs_exists (ctx.normalize file) = true
      · by_cases hdir : ctx.fs_isdir (ctx.normalize file) = true
        · rw [if_neg (by simp [hex]), if_pos hdir]
          exact ih acc h
        · by_cases hacc : ctx.normalize file ∈ acc
          · rw [if_neg (by simp [hex]), if_neg hdir, if_pos hacc]
            exact ih acc h
          · rw [if_neg (by simp [hex]), if_neg hdir, if_neg hacc]
            apply ih
            rw [List.nodup_append]
            refine ⟨h, List.nodup_singleton _, ?_⟩
            intro a ha hb
            rw [List.mem_singleton] at hb
            subst hb
            exact hacc ha
      · have hex' : ctx.fs_exists (ctx.normalize file) = false := by
          cases hb : ctx.fs_exists (ctx.normalize file)
          · rfl
          · exact absurd hb hex
        rw [if_pos (by simp [hex'])]
        exact ih acc h

theorem collect_foldl_spec (ctx : PrepCtx) (fuel : Nat) (script_output : Str) :
    ∀ (ofs : List Str) (acc : List Str),
      (acc.Nodup →
        (ofs.foldl (fun a f =>
          addCandidates ctx a
            (find_matching_files ctx.glob fuel f script_output)) acc).Nodup)
      ∧ ∀ x, x ∈ ofs.foldl (fun a f =>
            addCandidates ctx a
              (find_matching_files ctx.glob fuel f script_output)) acc ↔
          x ∈ acc ∨ ((∃ f ∈ ofs,
              x ∈ (find_matching_files ctx.glob fuel f script_output).map
                ctx.normalize)
            ∧ ctx.fs_exists x = true ∧ ctx.fs_isdir x = false) := by
  intro ofs
  induction ofs with
  | nil =>
      intro acc
      refine ⟨fun h => h, fun x => ?_⟩
      simp
  | cons f rest ih =>
      intro acc
      rw [List.foldl_cons]
      refine ⟨?_, ?_⟩
      · intro h
        exact (ih _).1 (addCandidates_nodup ctx _ acc h)
      · intro x
        rw [(ih _).2 x, addCandidates_mem ctx]
        constructor
        · rintro ((h | ⟨hm, hP⟩) | ⟨⟨g, hg, hgm⟩, hP⟩)
          · exact Or.inl h
          · exact Or.inr ⟨⟨f, List.mem_cons_self _ _, hm⟩, hP⟩
          · exact Or.inr ⟨⟨g, List.mem_cons_of_mem _ hg, hgm⟩, hP⟩
        · rintro (h | ⟨⟨g, hg, hgm⟩, hP⟩)
          · exact Or.inl (Or.inl h)
          · rcases List.mem_cons.mp hg with rfl | hg
            · exact Or.inl (Or.inr ⟨hgm, hP⟩)
            · exact Or.inr ⟨⟨g, hg, hgm⟩, hP⟩

/-- C8: the file resolver normalizes every candidate produced by the matcher
against the working directory and excludes it exactly when the normalized
path does not exist, is a directory, or duplicates an already-accepted
normalized path; exclusions are non-fatal — every other candidate of the
batch is still accepted (membership is characterized for all candidates, and
the accepted list has no duplicates). -/
theorem claim_C8_candidate_filtering (ctx : PrepCtx) (fuel : Nat)
    (output_files : List Str) (script_output : Str) :
    (collect_correct_files ctx fuel output_files script_output).Nodup
    ∧ ∀ x, x ∈ collect_correct_files ctx fuel output_files script_output ↔
        (∃ f ∈ output_files,
          x ∈ (find_matching_files ctx.glob fuel f script_output).map
            ctx.normalize)
        ∧ ctx.fs_exists x = true ∧ ctx.fs_isdir x = false := by
  unfold collect_correct_files
  obtain ⟨h1, h2⟩ := collect_foldl_spec ctx fuel script_output output_files []
  refine ⟨h1 (List.nodup_nil), fun x => ?_⟩
  rw [h2 x]
  simp

theorem stripWs_isEmpty_false (s : Str) (h : is_blank (some s) = false) :
    (stripWs s).isEmpty = false := by
  unfold is_blank at h
  rw [List.all_eq_false] at h
  obtain ⟨c, hc, hws⟩ := h
  rw [Bool.not_eq_true] at hws
  have hc1 : c ∈ s.dropWhile isWsCh := by
    have hsplit := List.takeWhile_append_dropWhile isWsCh s
    rw [← hsplit] at hc
    rcases List.mem_append.mp hc with hm | hm
    · have := List.mem_takeWhile_imp hm
      rw [this] at hws
      cases hws
    · exact hm
  have hc2 : c ∈ (s.dropWhile isWsCh).reverse := List.mem_reverse.mpr hc1
  have hne : (s.dropWhile isWsCh).reverse.dropWhile isWsCh ≠ [] := by
    intro hnil
    rw [List.dropWhile_eq_nil_iff] at hnil
    have := hnil c hc2
    rw [this] at hws
    cases hws
  unfold stripWs
  cases hd : (s.dropWhile isWsCh).reverse.dropWhile isWsCh with
  | nil => exact absurd hd hne
  | cons a t => simp

/-- C10: configured output-file declarations are sanitized before use — an
entry that is neither a string nor a dict is ignored by both declaration
kinds; a dict entry whose path is missing, empty or whitespace-only is
dropped before parameter substitution; and a kept dict entry's path is
stripped of surrounding whitespace before substitution and matching. -/
theorem claim_C10_declaration_sanitizing (subst : Str → Str)
    (rest : List OutFile) :
    (_get_paths subst _is_post_finish_path (OutFile.other :: rest)
        = _get_paths subst _is_post_finish_path rest
      ∧ _get_paths subst _is_inline_image_path (OutFile.other :: rest)
        = _get_paths subst _is_inline_image_path rest)
    ∧ (∀ (pth : Option Str) (t : Option Str) (pred : OutFile → Bool),
        is_blank pth = true →
        _get_paths subst pred (OutFile.dict pth t :: rest)
          = _get_paths subst pred rest)
    ∧ ∀ (s : Str) (t : Option Str) (pred : OutFile → Bool),
        is_blank (some s) = false →
        pred (OutFile.dict (some s) t) = true →
        _get_paths subst pred (OutFile.dict (some s) t :: rest)
          = subst (stripWs s) :: _get_paths subst pred rest := by
  refine ⟨⟨?_, ?_⟩, ?_, ?_⟩
  · unfold _get_paths
    rw [List.filter_cons]
    simp [_is_post_finish_path]
  · unfold _get_paths
    rw [List.filter_cons]
    simp [_is_inline_image_path]
  · intro pth t pred hblank
    unfold _get_paths
    rw [List.filter_cons]
    by_cases hp : pred (OutFile.dict pth t) = true
    · rw [if_pos (by simp [hp])]
      rw [List.filterMap_cons]
      have : _extract_path (OutFile.dict pth t) = none := by
        simp only [_extract_path]
        rw [if_pos hblank]
      rw [this]
    · rw [if_neg (by simp [hp])]
  · intro s t pred hblank hp
    unfold _get_paths
    rw [List.filter_cons, if_pos (by simp [hp]), List.filterMap_cons]
    have hext : _extract_path (OutFile.dict (some s) t)
        = some (stripWs s) := by
      simp only [_extract_path]
      rw [if_neg (by simp [hblank])]
      rfl
    rw [hext]
    rw [List.filter_cons]
    rw [if_pos (by simp [stripWs_isEmpty_false s hblank])]
    rfl

/-- Witness for C10: a whitespace-only dict path is dropped, a padded one is
stripped, a non-string non-dict entry is ignored. -/
theorem claim_C10_declaration_sanitizing_witness :
    is_blank (some "  ".toList) = true ∧
    is_blank (some " /a ".toList) = false ∧
    _is_post_finish_path (OutFile.dict (some " /a ".toList) none) = true ∧
    _get_paths id _is_post_finish_path
        (OutFile.dict (some " /a ".toList) none :: [OutFile.str "k".toList])
      = "/a".toList :: _get_paths id _is_post_finish_path
          [OutFile.str "k".toList] :=
  ⟨by decide, by decide, by decide,
    (claim_C10_declaration_sanitizing id [OutFile.str "k".toList]).2.2
      " /a ".toList none _is_post_finish_path (by decide) (by decide)⟩

theorem claimStepDir_eq (ctx : FmfCtx) (script_output p : Str)
    (rs gn ps : Nat) :
    claimStepDir ctx script_output p rs gn ps =
      match fmfDirective script_output p rs gn ps with
      | some new_patterns => .pushes new_patterns
      | none => claimNoDirective ctx p := by
  unfold claimStepDir fmfDirective find_closing_hash
  rw [← hashScanAux_eq_claimClosing p (p.length + 1) (ps + 1) (by omega)]
  cases hcl : hashScanAux p (p.length + 1) (ps + 1) with
  | none => rfl
  | some regex_end => rfl

theorem claimStep_eq (ctx : FmfCtx) (script_output p : Str) :
    claimStep ctx script_output p =
      match fmfHandleHash script_output p with
      | some new_patterns => .pushes new_patterns
      | none => claimNoDirective ctx p := by
  unfold claimStep fmfHandleHash
  cases hfs : strFind p '#' 0 with
  | none => rfl
  | some rs =>
      show (match groupPrefixAt p rs with
          | some gp => claimStepDir ctx script_output p rs gp.1 gp.2
          | none => claimStepDir ctx script_output p rs 0 rs)
        = match (match groupPrefixAt p rs with
            | some gp => fmfDirective script_output p rs gp.1 gp.2
            | none => fmfDirective script_output p rs 0 rs) with
          | some new_patterns => StepAction.pushes new_patterns
          | none => claimNoDirective ctx p
      cases hgp : groupPrefixAt p rs with
      | none => exact claimStepDir_eq ctx script_output p rs 0 rs
      | some gp => exact claimStepDir_eq ctx script_output p rs gp.1 gp.2

/-- C1: one worklist step of `find_matching_files` on a popped declaration
string behaves as the claim describes: with a directive present (an opening
`#` whose closing `#` is findable), the extracted regex body — after macro
substitution — is matched against the full text block for all
non-overlapping matches, and one new string per match (the original with the
directive span replaced by the selected capture group's text) is pushed back
onto the worklist; with no directive and no wildcard the string is emitted
as a path as is; with no directive but a wildcard it is passed whole to glob
expansion and every result is emitted. -/
theorem claim_C1_worklist_step (ctx : FmfCtx) (script_output : Str)
    (fuel : Nat) (p : Str) (queue files : List Str) :
    fmfLoop ctx script_output (fuel + 1) (p :: queue) files =
      match claimStep ctx script_output p with
      | .pushes new_patterns =>
          fmfLoop ctx script_output fuel (queue ++ new_patterns) files
      | .emits paths =>
          fmfLoop ctx script_output fuel queue (files ++ paths) := by
  rw [fmfLoop, claimStep_eq]
  cases hh : fmfHandleHash script_output p with
  | some new_patterns => rfl
  | none =>
      unfold claimNoDirective
      by_cases hstar : p.contains '*' = true
      · rw [if_pos hstar, if_pos hstar]
      · rw [if_neg hstar, if_neg hstar]

theorem parse_anyPath :
    parseRx ('~' :: '?' :: anyPathRegex) = some anyPathRx := by rfl

theorem replaceAll_anyPath :
    replaceAll ('~' :: '?' :: anyPathToken) anyPathToken anyPathRegex
      = '~' :: '?' :: anyPathRegex := by rfl

theorem segCls_matchesCh (c : Char) : segCls.matchesCh c = segChar c := by
  unfold ClsSpec.matchesCh segCls segChar
  simp only [Bool.true_and, Bool.false_and, Bool.false_or, Bool.or_false,
    List.any_nil]
  rw [List.contains_cons, List.contains_cons, List.contains_nil]
  simp only [Bool.or_false]
  rw [Bool.or_assoc]
  rfl

theorem matchesRx_cls_cons (k : ClsSpec) (c : Char) (rest : Str) :
    matchesRx (.cls k) (c :: rest)
      = if k.matchesCh c = true then [(1, ([] : GEnv))] else [] := rfl

theorem matchesRx_seq (r1 r2 : Rx) (s : Str) :
    matchesRx (.seq r1 r2) s
      = (matchesRx r1 s).flatMap (fun p =>
          (matchesRx r2 (s.drop p.1)).map
            (fun q => (p.1 + q.1, p.2 ++ q.2))) := rfl

theorem matchesRx_alt (r1 r2 : Rx) (s : Str) :
    matchesRx (.alt r1 r2) s = matchesRx r1 s ++ matchesRx r2 s := rfl

theorem matchesRx_grp (i : Nat) (r : Rx) (s : Str) :
    matchesRx (.grp i r) s
      = (matchesRx r s).map (fun p => (p.1, p.2 ++ [(i, s.take p.1)])) := rfl

theorem matchesRx_eps (s : Str) : matchesRx .eps s = [(0, [])] := rfl

theorem matchesRx_ch (c a : Char) (rest : Str) :
    matchesRx (.ch c) (a :: rest)
      = if a = c then [(1, ([] : GEnv))] else [] := rfl

theorem matchesRx_ch_nil (c : Char) : matchesRx (.ch c) [] = [] := rfl

theorem matchesRx_opt (r : Rx) (s : Str) :
    matchesRx (.opt r) s = matchesRx r s ++ [(0, [])] := rfl

theorem matchesRx_plus (r : Rx) (s : Str) :
    matchesRx (.plus r) s
      = plusIter (fun t => matchesRx r t) (s.length + 1) s := rfl

theorem item_cls (c : Char) (rest : Str) (hseg : segChar c = true) :
    matchesRx itemRx (c :: rest) = [(1, [(2, [c])])] := by
  have hbs : ¬ (c = '\\') := by
    intro h; subst h; exact absurd hseg (by decide)
  have hcls : matchesRx (.cls segCls) (c :: rest) = [(1, [])] := by
    rw [matchesRx_cls_cons, segCls_matchesCh, hseg]
    simp
  have hse : matchesRx (.seq (.cls segCls) .eps) (c :: rest) = [(1, [])] := by
    rw [matchesRx_seq, hcls]
    simp [matchesRx_eps]
  have hesc : matchesRx escRx (c :: rest) = [] := by
    simp [escRx, matchesRx_seq, matchesRx_grp, matchesRx_ch, hbs]
  rw [show itemRx = .grp 2 (.alt (.seq (.cls segCls) .eps) escRx) from rfl,
    matchesRx_grp, matchesRx_alt, hse, hesc, List.append_nil]
  rfl

theorem item_esc (rest : Str) :
    matchesRx itemRx ('\\' :: ' ' :: rest)
      = [(2, [(3, ['\\', ' ']), (2, ['\\', ' '])])] := by
  have hcls : matchesRx (.cls segCls) ('\\' :: ' ' :: rest) = [] := by
    rw [matchesRx_cls_cons]
    rw [show segCls.matchesCh '\\' = false from by decide]
    simp
  have hse : matchesRx (.seq (.cls segCls) .eps) ('\\' :: ' ' :: rest) = [] := by
    rw [matchesRx_seq, hcls]
    simp
  have hesc : matchesRx escRx ('\\' :: ' ' :: rest)
      = [(2, [(3, ['\\', ' '])])] := by
    simp [escRx, matchesRx_seq, matchesRx_grp, matchesRx_ch, matchesRx_eps]
  rw [show itemRx = .grp 2 (.alt (.seq (.cls segCls) .eps) escRx) from rfl,
    matchesRx_grp, matchesRx_alt, hse, hesc, List.nil_append]
  rfl

theorem item_none (s : Str) (hstop : stopItem s = true) :
    matchesRx itemRx s = [] := by
  cases s with
  | nil => rfl
  | cons c rest =>
      unfold stopItem at hstop
      rw [Bool.and_eq_true, Bool.not_eq_true', Bool.not_eq_true'] at hstop
      obtain ⟨hseg, hnesc⟩ := hstop
      have hcls : matchesRx (.cls segCls) (c :: rest) = [] := by
        rw [matchesRx_cls_cons, segCls_matchesCh, hseg]
        simp
      have hse : matchesRx (.seq (.cls segCls) .eps) (c :: rest) = [] := by
        rw [matchesRx_seq, hcls]
        simp
      have hesc : matchesRx escRx (c :: rest) = [] := by
        by_cases hbs : c = '\\'
        · subst hbs
          rw [Bool.and_eq_false_iff] at hnesc
          have hsp : rest.head? ≠ some ' ' := by
            rcases hnesc with h | h
            · simp at h
            · intro hc
              rw [hc] at h
              simp at h
          cases rest with
          | nil =>
              simp [escRx, matchesRx_seq, matchesRx_grp, matchesRx_ch,
                matchesRx_ch_nil]
          | cons r t =>
              have hr : ¬ (r = ' ') := by
                intro h; subst h; exact hsp rfl
              simp [escRx, matchesRx_seq, matchesRx_grp, matchesRx_ch, hr]
        · simp [escRx, matchesRx_seq, matchesRx_grp, matchesRx_ch, hbs]
      rw [show itemRx = .grp 2 (.alt (.seq (.cls segCls) .eps) escRx) from rfl,
        matchesRx_grp, matchesRx_alt, hse, hesc]
      rfl

theorem plusIter_succ (inner : Str → List PM) (f : Nat) (s : Str) :
    plusIter inner (f + 1) s
      = (inner s).flatMap (fun p =>
          if p.1 = 0 then []
          else
            ((plusIter inner f (s.drop p.1)).map
              (fun q => (p.1 + q.1, p.2 ++ q.2))) ++ [p]) := rfl

theorem plusIter_item_nil (t : Str) (hstop : stopItem t = true) (f : Nat) :
    plusIter (fun u => matchesRx itemRx u) f t = [] := by
  cases f with
  | zero => rfl
  | succ f =>
      rw [plusIter_succ, item_none t hstop]
      rfl

theorem plusIter_item_run :
    ∀ (sg : List SegItem) (t : Str) (f : Nat),
      sg ≠ [] → sg.all SegItem.ok = true → stopItem t = true →
      (segStr sg ++ t).length < f →
      ∃ gs, (plusIter (fun u => matchesRx itemRx u) f (segStr sg ++ t)).head?
        = some ((segStr sg).length, gs) := by
  intro sg
  induction sg with
  | nil => intro t f h; cases h rfl
  | cons item sg' ih =>
      intro t f _ hok hstop hf
      rw [List.all_cons, Bool.and_eq_true] at hok
      obtain ⟨hitem, hok2⟩ := hok
      have hsplit : segStr (item :: sg') ++ t
          = item.chars ++ (segStr sg' ++ t) := by
        show ((item.chars :: sg'.map SegItem.chars).flatten) ++ t = _
        rw [List.flatten_cons, List.append_assoc]
        rfl
      have hlen : (segStr (item :: sg')).length
          = item.chars.length + (segStr sg').length := by
        show ((item.chars :: sg'.map SegItem.chars).flatten).length = _
        rw [List.flatten_cons, List.length_append]
        rfl
      obtain ⟨f2, rfl⟩ : ∃ f2, f = f2 + 1 := by
        cases f with
        | zero => omega
        | succ f2 => exact ⟨f2, rfl⟩
      have hinner : ∃ g0, matchesRx itemRx (segStr (item :: sg') ++ t)
          = [(item.chars.length, g0)] ∧ item.chars.length ≠ 0 := by
        cases item with
        | pln c =>
            refine ⟨[(2, [c])], ?_, by simp [SegItem.chars]⟩
            rw [hsplit]
            show matchesRx itemRx (c :: (segStr sg' ++ t)) = _
            rw [item_cls c _ hitem]
            rfl
        | esc =>
            refine ⟨[(3, ['\\', ' ']), (2, ['\\', ' '])], ?_, by decide⟩
            rw [hsplit]
            show matchesRx itemRx ('\\' :: ' ' :: (segStr sg' ++ t)) = _
            rw [item_esc]
            rfl
      obtain ⟨g0, hin, hkne⟩ := hinner
      rw [plusIter_succ, hin, List.flatMap_cons, List.flatMap_nil,
        List.append_nil]
      rw [if_neg hkne]
      have hdrop : (segStr (item :: sg') ++ t).drop item.chars.length
          = segStr sg' ++ t := by
        rw [hsplit]
        exact List.drop_left' rfl
      rw [hdrop]
      by_cases hsg2 : sg' = []
      · subst hsg2
        rw [show segStr ([] : List SegItem) ++ t = t from rfl]
        rw [plusIter_item_nil t hstop f2]
        rw [List.map_nil, List.nil_append, List.head?_cons]
        refine ⟨g0, ?_⟩
        rw [hlen, show (segStr ([] : List SegItem)).length = 0 from rfl,
          Nat.add_zero]
      · have hf2 : (segStr sg' ++ t).length < f2 := by
          have h1 : (segStr (item :: sg') ++ t).length
              = item.chars.length + (segStr sg' ++ t).length := by
            rw [hsplit, List.length_append]
          have h2 : 1 ≤ item.chars.length := by
            cases item with
            | pln c => simp [SegItem.chars]
            | esc => simp [SegItem.chars]
          omega
        obtain ⟨gs2, hhead⟩ := ih t f2 hsg2 hok2 hstop hf2
        obtain ⟨tail2, htail⟩ := List.head?_eq_some_iff.mp hhead
        rw [htail, List.map_cons, List.cons_append, List.head?_cons]
        refine ⟨g0 ++ gs2, ?_⟩
        rw [hlen]

theorem plus_item_nil (t : Str) (hstop : stopItem t = true) :
    matchesRx (.plus itemRx) t = [] := by
  rw [matchesRx_plus]
  exact plusIter_item_nil t hstop _

theorem plus_item_head (sg : List SegItem) (t : Str) (hne : sg ≠ [])
    (hok : sg.all SegItem.ok = true) (hstop : stopItem t = true) :
    ∃ gs, (matchesRx (.plus itemRx) (segStr sg ++ t)).head?
      = some ((segStr sg).length, gs) := by
  rw [matchesRx_plus]
  exact plusIter_item_run sg t _ hne hok hstop (by omega)

theorem matchesRx_seq_ch_cons (c : Char) (r : Rx) (s : Str) :
    matchesRx (.seq (.ch c) r) (c :: s)
      = (matchesRx r s).map (fun q => (1 + q.1, q.2)) := by
  rw [matchesRx_seq, matchesRx_ch, if_pos rfl, List.flatMap_cons,
    List.flatMap_nil, List.append_nil]
  rfl

theorem matchesRx_seq_eps (r : Rx) (s : Str) :
    matchesRx (.seq r .eps) s = matchesRx r s := by
  rw [matchesRx_seq]
  have hgen : ∀ l : List PM,
      l.flatMap (fun p =>
        (matchesRx .eps (s.drop p.1)).map
          (fun q => (p.1 + q.1, p.2 ++ q.2))) = l := by
    intro l
    induction l with
    | nil => rfl
    | cons x xs ih =>
        rw [List.flatMap_cons, ih]
        simp [matchesRx_eps]
  exact hgen _

theorem plusIter_nil_of (inner : Str → List PM) (t : Str)
    (h : inner t = []) (f : Nat) : plusIter inner f t = [] := by
  cases f with
  | zero => rfl
  | succ f => rw [plusIter_succ, h]; rfl

theorem head?_flatMap_cons (f : PM → List PM) (x : PM) (l : List PM)
    (hne : f x ≠ []) : ((x :: l).flatMap f).head? = (f x).head? := by
  rw [List.flatMap_cons]
  cases hfx : f x with
  | nil => exact absurd hfx hne
  | cons a t => rw [List.cons_append, List.head?_cons, List.head?_cons]

theorem stopItem_sep (x : Str) : stopItem ('/' :: x) = true := by
  show (!segChar '/' &&
    !(decide ('/' = '\\') && decide (x.head? = some ' '))) = true
  rw [show segChar '/' = false from by decide,
    show decide ('/' = '\\') = false from by decide, Bool.false_and]
  rfl

theorem g1_unfold : g1Rx = .grp 1 (.seq (.ch '/') (.seq (.plus itemRx) .eps)) :=
  rfl

theorem g1_nil_nosep (s : Str) (h : s.head? ≠ some '/') :
    matchesRx g1Rx s = [] := by
  cases s with
  | nil => rfl
  | cons c rest =>
      have hc : ¬ (c = '/') := by
        intro hh; subst hh; exact h rfl
      rw [g1_unfold, matchesRx_grp, matchesRx_seq, matchesRx_ch, if_neg hc]
      rfl

theorem g1_nil_stop (t : Str) (hstop : stopItem t = true) :
    matchesRx g1Rx ('/' :: t) = [] := by
  rw [g1_unfold, matchesRx_grp, matchesRx_seq_ch_cons, matchesRx_seq_eps,
    plus_item_nil t hstop]
  rfl

theorem g1_head (sg : List SegItem) (t : Str) (hne : sg ≠ [])
    (hok : sg.all SegItem.ok = true) (hstop : stopItem t = true) :
    ∃ gs, (matchesRx g1Rx ('/' :: (segStr sg ++ t))).head?
      = some (1 + (segStr sg).length, gs) := by
  obtain ⟨gs, hhead⟩ := plus_item_head sg t hne hok hstop
  rw [g1_unfold, matchesRx_grp, matchesRx_seq_ch_cons, matchesRx_seq_eps,
    List.head?_map, List.head?_map, hhead]
  exact ⟨_, rfl⟩

theorem plusIter_g1_run :
    ∀ (segs : List (List SegItem)) (t : Str) (f : Nat),
      segs ≠ [] → segs.all goodSeg = true →
      t.all (fun c => !(c = '/')) = true → stopItem t = true →
      (pathStr segs ++ t).length < f →
      ∃ gs, (plusIter (fun u => matchesRx g1Rx u) f (pathStr segs ++ t)).head?
        = some ((pathStr segs).length, gs) := by
  intro segs
  induction segs with
  | nil => intro t f h; cases h rfl
  | cons sg segs2 ih =>
      intro t f _ hok hsep hstop hf
      rw [List.all_cons, Bool.and_eq_true] at hok
      obtain ⟨hsg, hok2⟩ := hok
      rw [goodSeg, Bool.and_eq_true, Bool.not_eq_true', List.isEmpty_eq_false]
        at hsg
      obtain ⟨hsgne, hsgok⟩ := hsg
      have hsplit : pathStr (sg :: segs2) ++ t
          = '/' :: (segStr sg ++ (pathStr segs2 ++ t)) := by
        show (('/' :: segStr sg) :: segs2.map (fun z => '/' :: segStr z)).flatten
            ++ t = _
        rw [List.flatten_cons, List.cons_append, List.cons_append,
          List.append_assoc]
        rfl
      have hlen : (pathStr (sg :: segs2)).length
          = (segStr sg).length + 1 + (pathStr segs2).length := by
        show (('/' :: segStr sg) :: segs2.map (fun z => '/' :: segStr z)).flatten.length = _
        rw [List.flatten_cons, List.length_append, List.length_cons]
        rfl
      have hstop2 : stopItem (pathStr segs2 ++ t) = true := by
        cases segs2 with
        | nil => exact hstop
        | cons sg2 rest2 =>
            rw [show pathStr (sg2 :: rest2) ++ t
                = '/' :: ((segStr sg2 ++ (pathStr rest2 ++ t))) from by
              show (('/' :: segStr sg2) :: rest2.map (fun z => '/' :: segStr z)).flatten ++ t = _
              rw [List.flatten_cons, List.cons_append, List.cons_append,
                List.append_assoc]
              rfl]
            exact stopItem_sep _
      obtain ⟨gs0, hg1head⟩ := g1_head sg (pathStr segs2 ++ t) hsgne hsgok hstop2
      rw [← hsplit] at hg1head
      obtain ⟨ytail, hylist⟩ := List.head?_eq_some_iff.mp hg1head
      obtain ⟨f2, rfl⟩ : ∃ f2, f = f2 + 1 := by
        cases f with
        | zero => omega
        | succ f2 => exact ⟨f2, rfl⟩
      rw [plusIter_succ]
      rw [hylist]
      rw [head?_flatMap_cons _ _ _ (by
        rw [if_neg (show ¬ ((1 + (segStr sg).length, gs0).1 = 0) from by
          simp)]
        intro hcon
        exact absurd (List.append_eq_nil.mp hcon).2 (by simp))]
      rw [if_neg (show ¬ ((1 + (segStr sg).length, gs0).1 = 0) from by simp)]
      have hdrop : (pathStr (sg :: segs2) ++ t).drop
          ((1 + (segStr sg).length, gs0).1) = pathStr segs2 ++ t := by
        rw [hsplit]
        show ('/' :: (segStr sg ++ (pathStr segs2 ++ t))).drop
          (1 + (segStr sg).length) = _
        rw [show ('/' :: (segStr sg ++ (pathStr segs2 ++ t)))
            = ('/' :: segStr sg) ++ (pathStr segs2 ++ t) from rfl]
        exact List.drop_left' (by rw [List.length_cons]; omega)
      rw [hdrop]
      by_cases hsegs2 : segs2 = []
      · subst hsegs2
        rw [show pathStr ([] : List (List SegItem)) ++ t = t from rfl]
        have hnil : matchesRx g1Rx t = [] := by
          apply g1_nil_nosep
          cases t with
          | nil => intro h; cases h
          | cons c rest =>
              rw [List.all_cons, Bool.and_eq_true, Bool.not_eq_true'] at hsep
              intro h
              rw [List.head?_cons] at h
              injection h with h
              rw [h] at hsep
              exact absurd hsep.1 (by decide)
        rw [plusIter_nil_of _ t hnil f2]
        rw [List.map_nil, List.nil_append, List.head?_cons]
        refine ⟨gs0, ?_⟩
        rw [hlen]
        rw [show (pathStr ([] : List (List SegItem))).length = 0 from rfl,
          Nat.add_zero, Nat.add_comm]
      · have hf2 : (pathStr segs2 ++ t).length < f2 := by
          have h1 : (pathStr (sg :: segs2) ++ t).length
              = (segStr sg).length + 1 + (pathStr segs2 ++ t).length := by
            rw [hsplit, List.length_cons, List.length_append]
            omega
          omega
        obtain ⟨gs2, hhead2⟩ := ih t f2 hsegs2 hok2 hsep hstop hf2
        obtain ⟨ztail, hzlist⟩ := List.head?_eq_some_iff.mp hhead2
        rw [hzlist, List.map_cons, List.cons_append, List.head?_cons]
        refine ⟨gs0 ++ gs2, ?_⟩
        rw [hlen]
        rw [show (1 + (segStr sg).length, gs0).1 = 1 + (segStr sg).length
          from rfl]
        rw [show ((1 + (segStr sg).length, gs0).2 : GEnv) = gs0 from rfl]
        rw [show 1 + (segStr sg).length + (pathStr segs2).length
            = (segStr sg).length + 1 + (pathStr segs2).length from by omega]

theorem apx_unfold :
    anyPathRx = .seq (.opt (.ch '~')) (.seq (.plus g1Rx) .eps) := rfl

theorem plus_g1_nil (s : Str) (h : matchesRx g1Rx s = []) :
    matchesRx (.plus g1Rx) s = [] := by
  rw [matchesRx_plus]
  exact plusIter_nil_of _ s h _

theorem apx_nil_plain (s : Str) (h1 : s.head? ≠ some '/')
    (h2 : s.head? ≠ some '~') : matchesRx anyPathRx s = [] := by
  have hch : matchesRx (.ch '~') s = [] := by
    cases s with
    | nil => rfl
    | cons c rest =>
        have hc : ¬ (c = '~') := by
          intro hh; subst hh; exact h2 rfl
        rw [matchesRx_ch, if_neg hc]
  have hplus : matchesRx (.plus g1Rx) s = [] :=
    plus_g1_nil s (g1_nil_nosep s h1)
  rw [apx_unfold, matchesRx_seq, matchesRx_opt, hch, List.nil_append,
    List.flatMap_cons, List.flatMap_nil, List.append_nil, List.drop_zero,
    matchesRx_seq_eps, hplus]
  rfl

theorem apx_nil_tilde (t : Str) (h : t.head? ≠ some '/') :
    matchesRx anyPathRx ('~' :: t) = [] := by
  have hch : matchesRx (.ch '~') ('~' :: t) = [(1, ([] : GEnv))] := by
    rw [matchesRx_ch, if_pos rfl]
  have hplus1 : matchesRx (.plus g1Rx) t = [] :=
    plus_g1_nil t (g1_nil_nosep t h)
  have hplus2 : matchesRx (.plus g1Rx) ('~' :: t) = [] :=
    plus_g1_nil _ (g1_nil_nosep ('~' :: t) (by
      rw [List.head?_cons]
      intro hc
      injection hc with hc
      cases hc))
  rw [apx_unfold, matchesRx_seq, matchesRx_opt, hch, List.cons_append,
    List.nil_append, List.flatMap_cons, List.flatMap_cons, List.flatMap_nil,
    List.append_nil]
  rw [show ('~' :: t).drop ((1 : Nat), ([] : GEnv)).1 = t from rfl]
  rw [List.drop_zero, matchesRx_seq_eps, matchesRx_seq_eps, hplus1, hplus2]
  rfl

theorem apx_head (segs : List (List SegItem)) (t : Str)
    (hne : segs ≠ []) (hok : segs.all goodSeg = true)
    (hsep : t.all (fun c => !(c = '/')) = true) (hstop : stopItem t = true) :
    ∃ gs, (matchesRx anyPathRx (pathStr segs ++ t)).head?
      = some ((pathStr segs).length, gs) := by
  obtain ⟨X, hX⟩ : ∃ X, pathStr segs ++ t = '/' :: X := by
    cases segs with
    | nil => exact absurd rfl hne
    | cons sg segs2 =>
        refine ⟨segStr sg ++ (pathStr segs2 ++ t), ?_⟩
        show (('/' :: segStr sg) :: segs2.map (fun z => '/' :: segStr z)).flatten
            ++ t = _
        rw [List.flatten_cons, List.cons_append, List.cons_append,
          List.append_assoc]
        rfl
  have hch : matchesRx (.ch '~') (pathStr segs ++ t) = [] := by
    rw [hX, matchesRx_ch, if_neg (by decide)]
  obtain ⟨gs, hrun⟩ := by
    refine plusIter_g1_run segs t ((pathStr segs ++ t).length + 1) hne hok
      hsep hstop (by omega)
  rw [apx_unfold, matchesRx_seq, matchesRx_opt, hch, List.nil_append,
    List.flatMap_cons, List.flatMap_nil, List.append_nil, List.drop_zero,
    matchesRx_seq_eps, List.head?_map]
  rw [matchesRx_plus, hrun]
  refine ⟨gs, ?_⟩
  rw [Option.map_some']
  rw [show ((0 : Nat), ([] : GEnv)).1 = 0 from rfl]
  rw [Nat.zero_add]
  rfl

theorem scanFrom_succ (r : Rx) (text : Str) (f i : Nat) :
    scanFrom r text (f + 1) i
      = match (matchesRx r (text.drop i)).head? with
        | some p =>
            (i, p.1, p.2) ::
              (if p.1 = 0 then
                (if i < text.length then scanFrom r text f (i + 1) else [])
              else scanFrom r text f (i + p.1))
        | none =>
            if i < text.length then scanFrom r text f (i + 1) else [] := rfl

theorem scan_post (text : Str) (j0 : Nat)
    (hnil : ∀ j, j0 ≤ j → matchesRx anyPathRx (text.drop j) = []) :
    ∀ f j, j0 ≤ j → scanFrom anyPathRx text f j = [] := by
  intro f
  induction f with
  | zero => intro j _; rfl
  | succ f ih =>
      intro j hj0
      rw [scanFrom_succ, hnil j hj0]
      simp only [List.head?_nil]
      by_cases hj : j < text.length
      · rw [if_pos hj]
        exact ih (j + 1) (by omega)
      · rw [if_neg hj]

theorem pathStr_length_pos (segs : List (List SegItem)) (hne : segs ≠ []) :
    1 ≤ (pathStr segs).length := by
  cases segs with
  | nil => exact absurd rfl hne
  | cons sg segs2 =>
      show 1 ≤ ((('/' :: segStr sg) :: segs2.map (fun z => '/' :: segStr z)).flatten).length
      rw [List.flatten_cons, List.length_append, List.length_cons]
      omega

theorem stopItem_of_postOk (post : Str) (hpost : postOk post = true) :
    stopItem post = true := by
  rw [postOk.eq_def, Bool.and_eq_true] at hpost
  obtain ⟨_, hhead⟩ := hpost
  cases post with
  | nil => rfl
  | cons c rest =>
      rw [Bool.and_eq_true] at hhead
      obtain ⟨h1, h2⟩ := hhead
      rw [Bool.not_eq_true'] at h2
      show (!segChar c &&
        !(decide (c = '\\') && decide (rest.head? = some ' '))) = true
      rw [h2, Bool.false_and, Bool.not_false, Bool.and_true]
      exact h1

theorem scan_main (pre post : Str) (segs : List (List SegItem))
    (hpre : preOk pre = true) (hgood : goodPath segs = true)
    (hpost : postOk post = true) :
    ∀ f i, i ≤ pre.length →
      (pre ++ (pathStr segs ++ post)).length + 2 ≤ f + i →
      ∃ gs, scanFrom anyPathRx (pre ++ (pathStr segs ++ post)) f i
        = [(pre.length, (pathStr segs).length, gs)] := by
  rw [goodPath, Bool.and_eq_true, Bool.not_eq_true', List.isEmpty_eq_false]
    at hgood
  obtain ⟨hsegsne, hsegsok⟩ := hgood
  have hstop : stopItem post = true := stopItem_of_postOk post hpost
  rw [postOk.eq_def, Bool.and_eq_true] at hpost
  obtain ⟨hpostsep, _⟩ := hpost
  have htlen : (pre ++ (pathStr segs ++ post)).length
      = pre.length + ((pathStr segs).length + post.length) := by
    rw [List.length_append, List.length_append]
  have hnil_suffix : ∀ j, pre.length + (pathStr segs).length ≤ j →
      matchesRx anyPathRx ((pre ++ (pathStr segs ++ post)).drop j) = [] := by
    intro j hj
    set m := j - (pre.length + (pathStr segs).length) with hm
    have hd : (pre ++ (pathStr segs ++ post)).drop j = post.drop m := by
      rw [show pre ++ (pathStr segs ++ post) = (pre ++ pathStr segs) ++ post
        from by rw [List.append_assoc]]
      rw [show j = (pre ++ pathStr segs).length + m from by
        rw [List.length_append]; omega]
      exact List.drop_append m
    rw [hd]
    cases hu : post.drop m with
    | nil =>
        apply apx_nil_plain <;> rw [List.head?_nil] <;> intro h <;> cases h
    | cons c r =>
        have hcpost : c ∈ post :=
          List.mem_of_mem_drop (hu ▸ List.mem_cons_self c r)
        have hcne : ¬ (c = '/') := by
          have := List.all_eq_true.mp hpostsep c hcpost
          rw [Bool.not_eq_true'] at this
          intro h; rw [decide_eq_true h] at this; cases this
        have hrne : r.head? ≠ some '/' := by
          cases r with
          | nil => rw [List.head?_nil]; intro h; cases h
          | cons c2 r2 =>
              have hc2 : c2 ∈ post := List.mem_of_mem_drop
                (hu ▸ List.mem_cons_of_mem c (List.mem_cons_self c2 r2))
              have := List.all_eq_true.mp hpostsep c2 hc2
              rw [Bool.not_eq_true'] at this
              rw [List.head?_cons]
              intro h
              injection h with h
              rw [decide_eq_true h] at this
              cases this
        by_cases hct : c = '~'
        · subst hct
          exact apx_nil_tilde r hrne
        · apply apx_nil_plain
          · rw [List.head?_cons]
            intro h; injection h with h; exact hcne h
          · rw [List.head?_cons]
            intro h; injection h with h; exact hct h
  intro f
  induction f with
  | zero =>
      intro i hi hf
      omega
  | succ f ih =>
      intro i hi hf
      by_cases hilt : i < pre.length
      · have hdropi : (pre ++ (pathStr segs ++ post)).drop i
            = pre.drop i ++ (pathStr segs ++ post) :=
          List.drop_append_of_le_length (by omega)
        have hnil : matchesRx anyPathRx
            ((pre ++ (pathStr segs ++ post)).drop i) = [] := by
          rw [hdropi]
          cases hd : pre.drop i with
          | nil =>
              exfalso
              have := List.length_drop i pre
              rw [hd] at this
              simp at this
              omega
          | cons c r =>
              have hc : c ∈ pre :=
                List.mem_of_mem_drop (hd ▸ List.mem_cons_self c r)
              have hall := List.all_eq_true.mp hpre c hc
              rw [Bool.and_eq_true] at hall
              obtain ⟨hc1, hc2⟩ := hall
              rw [Bool.not_eq_true'] at hc1 hc2
              rw [List.cons_append]
              apply apx_nil_plain
              · rw [List.head?_cons]
                intro h; injection h with h
                rw [decide_eq_true h] at hc1; cases hc1
              · rw [List.head?_cons]
                intro h; injection h with h
                rw [decide_eq_true h] at hc2; cases hc2
        rw [scanFrom_succ, hnil]
        simp only [List.head?_nil]
        rw [if_pos (by omega)]
        exact ih (i + 1) (by omega) (by omega)
      · have hieq : i = pre.length := by omega
        subst hieq
        have hdrop : (pre ++ (pathStr segs ++ post)).drop pre.length
            = pathStr segs ++ post := List.drop_left _ _
        obtain ⟨gs, hhead⟩ := apx_head segs post hsegsne hsegsok hpostsep hstop
        rw [scanFrom_succ, hdrop, hhead]
        simp only []
        rw [if_neg (show ¬ (((pathStr segs).length, gs).1 = 0) from by
          have hpl := pathStr_length_pos segs hsegsne
          intro hc
          rw [show (((pathStr segs).length, gs).1)
              = (pathStr segs).length from rfl] at hc
          omega)]
        rw [show pre.length + ((pathStr segs).length, gs).1
            = pre.length + (pathStr segs).length from rfl]
        rw [scan_post _ (pre.length + (pathStr segs).length) hnil_suffix f _
          (Nat.le_refl _)]
        exact ⟨gs, rfl⟩

theorem reFinditer_anyPath (pre post : Str) (segs : List (List SegItem))
    (hpre : preOk pre = true) (hgood : goodPath segs = true)
    (hpost : postOk post = true) :
    ∃ gs, reFinditer ('~' :: '?' :: anyPathRegex)
        (pre ++ (pathStr segs ++ post))
      = [(pre.length, (pathStr segs).length, gs)] := by
  unfold reFinditer
  rw [parse_anyPath]
  exact scan_main pre post segs hpre hgood hpost _ 0 (Nat.zero_le _)
    (by omega)

theorem pathStr_chars :
    ∀ (segs : List (List SegItem)), segs.all goodSeg = true →
      ∀ c ∈ pathStr segs,
        c = '/' ∨ segChar c = true ∨ c = '\\' ∨ c = ' ' := by
  intro segs
  induction segs with
  | nil =>
      intro _ c hc
      rw [show pathStr [] = [] from rfl] at hc
      cases hc
  | cons sg segs2 ih =>
      intro hok c hc
      rw [List.all_cons, Bool.and_eq_true] at hok
      obtain ⟨hsg, hok2⟩ := hok
      rw [show pathStr (sg :: segs2)
          = ('/' :: segStr sg) ++ pathStr segs2 from by
        show (('/' :: segStr sg) :: segs2.map (fun z => '/' :: segStr z)).flatten = _
        rw [List.flatten_cons]
        rfl] at hc
      rcases List.mem_append.mp hc with hc | hc
      · rcases List.mem_cons.mp hc with rfl | hc
        · exact Or.inl rfl
        · rw [goodSeg, Bool.and_eq_true] at hsg
          obtain ⟨_, hsgok⟩ := hsg
          rw [show segStr sg = (sg.map SegItem.chars).flatten from rfl] at hc
          obtain ⟨l, hl, hcl⟩ := List.mem_flatten.mp hc
          obtain ⟨item, hitem, rfl⟩ := List.mem_map.mp hl
          have hiok := List.all_eq_true.mp hsgok item hitem
          cases item with
          | pln d =>
              rcases List.mem_singleton.mp hcl with rfl
              exact Or.inr (Or.inl hiok)
          | esc =>
              rcases List.mem_cons.mp hcl with rfl | hcl
              · exact Or.inr (Or.inr (Or.inl rfl))
              · rcases List.mem_singleton.mp hcl with rfl
                exact Or.inr (Or.inr (Or.inr rfl))
      · exact ih hok2 c hc

theorem path_sf_none (segs : List (List SegItem))
    (hok : segs.all goodSeg = true) (c : Char) (hc : segChar c = false)
    (h1 : ¬ (c = '/')) (h2 : ¬ (c = '\\')) (h3 : ¬ (c = ' ')) :
    strFind (pathStr segs) c 0 = none := by
  unfold strFind
  rw [List.drop_zero]
  cases hfi : (pathStr segs).findIdx? (fun a => a = c) with
  | none => rfl
  | some k =>
      exfalso
      rw [List.findIdx?_eq_some_iff_getElem] at hfi
      obtain ⟨hlt, hq, _⟩ := hfi
      have hmem : (pathStr segs)[k] ∈ pathStr segs := List.getElem_mem _
      have hcases := pathStr_chars segs hok _ hmem
      have heq : (pathStr segs)[k] = c := of_decide_eq_true hq
      rw [heq] at hcases
      rcases hcases with h | h | h | h
      · exact h1 h
      · rw [h] at hc; cases hc
      · exact h2 h
      · exact h3 h

theorem path_no_star (segs : List (List SegItem))
    (hok : segs.all goodSeg = true) :
    (pathStr segs).contains '*' = false := by
  cases hb : (pathStr segs).contains '*' with
  | false => rfl
  | true =>
      exfalso
      have hcases := pathStr_chars segs hok '*' (List.elem_iff.mp hb)
      rcases hcases with h | h | h | h
      · exact absurd h (by decide)
      · exact absurd h (by decide)
      · exact absurd h (by decide)
      · exact absurd h (by decide)

theorem path_fmf_none (so : Str) (segs : List (List SegItem))
    (hok : segs.all goodSeg = true) :
    fmfHandleHash so (pathStr segs) = none := by
  unfold fmfHandleHash
  rw [path_sf_none segs hok '#' (by decide) (by decide) (by decide)
    (by decide)]

theorem fmfLoop_cons (ctx : FmfCtx) (so : Str) (fuel : Nat) (p : Str)
    (queue files : List Str) :
    fmfLoop ctx so (fuel + 1) (p :: queue) files
      = match fmfHandleHash so p with
        | some new_patterns => fmfLoop ctx so fuel (queue ++ new_patterns) files
        | none =>
            if p.contains '*' then
              fmfLoop ctx so fuel queue
                (files ++ ctx.search_glob p (containsSub "**".toList p))
            else fmfLoop ctx so fuel queue (files ++ [p]) := rfl

/-- C3 amended: for a directive whose regex body is exactly the any-path
macro — written `##any_path#`, since the body between the two directive
markers is the token `#any_path` — matching against a text block that embeds
a well-formed absolute path (separator-led segments of word characters,
dots, hyphens or escaped spaces) among other words (no separators or home
shorthands around it) extracts exactly the path substring as the candidate
path: the whole worklist resolution returns exactly that path. -/
theorem claim_C3_any_path_extraction (sgl : Str → Bool → List Str)
    (pre post : Str) (segs : List (List SegItem))
    (hpre : preOk pre = true) (hgood : goodPath segs = true)
    (hpost : postOk post = true) :
    find_matching_files ⟨sgl⟩ 2 anyPathDirective
        (pre ++ (pathStr segs ++ post))
      = [pathStr segs] := by
  have hokall : segs.all goodSeg = true := by
    rw [goodPath, Bool.and_eq_true] at hgood
    exact hgood.2
  obtain ⟨gs, hfind⟩ := reFinditer_anyPath pre post segs hpre hgood hpost
  have hgrp : (pyGroup (pre ++ (pathStr segs ++ post))
      (pre.length, (pathStr segs).length, gs) 0).getD [] = pathStr segs := by
    unfold pyGroup
    rw [if_pos rfl]
    rw [Option.getD_some]
    rw [show (pre.length, (pathStr segs).length, gs).1 = pre.length from rfl]
    rw [show ((pre.length, (pathStr segs).length, gs).2.1 : Nat)
        = (pathStr segs).length from rfl]
    rw [List.drop_left]
    exact List.take_left _ _
  have hhandle : fmfHandleHash (pre ++ (pathStr segs ++ post)) anyPathDirective
      = some [pathStr segs] := by
    unfold fmfHandleHash
    rw [show strFind anyPathDirective '#' 0 = some 0 from rfl]
    simp only []
    rw [show groupPrefixAt anyPathDirective 0 = none from rfl]
    simp only []
    unfold fmfDirective
    rw [show find_closing_hash anyPathDirective (0 + 1) = some 10 from rfl]
    simp only []
    rw [if_pos (show List.isPrefixOf anyPathToken
        (sliceStr anyPathDirective (0 + 1) 10) = true ∧ True from
      ⟨rfl, trivial⟩)]
    rw [show replaceAll ('~' :: '?' :: sliceStr anyPathDirective (0 + 1) 10)
        anyPathToken anyPathRegex = '~' :: '?' :: anyPathRegex from rfl]
    rw [hfind, List.map_cons, List.map_nil]
    rw [hgrp]
    unfold stringReplaceSpan
    rw [show anyPathDirective.take 0 = [] from rfl,
      show anyPathDirective.drop (10 + 1) = [] from rfl]
    rw [List.nil_append, List.append_nil]
  have hnohash := path_fmf_none (pre ++ (pathStr segs ++ post)) segs hokall
  have hnostar := path_no_star segs hokall
  unfold find_matching_files
  rw [show (2 : Nat) = 1 + 1 from rfl]
  rw [fmfLoop_cons, hhandle]
  simp only []
  rw [List.nil_append]
  rw [show (1 : Nat) = 0 + 1 from rfl]
  rw [fmfLoop_cons, hnohash]
  simp only []
  rw [if_neg (show ¬ ((pathStr segs).contains '*' = true) from by
    rw [hnostar]; exact Bool.false_ne_true)]
  rw [show fmfLoop ⟨sgl⟩ (pre ++ (pathStr segs ++ post)) 0 []
      ([] ++ [pathStr segs]) = [] ++ [pathStr segs] from rfl]
  rw [List.nil_append]

/-- C3 counterexample: read literally, the claim's directive `#any_path#`
has regex body `any_path` (the body sits between the two markers, so the
macro token `#any_path` requires the written form `##any_path#`): against a
text embedding the well-formed absolute path `/tmp/img.png` among other
words, the matcher extracts nothing at all instead of the path substring. -/
theorem claim_C3_any_path_counterexample :
    goodPath tmpImgSegs = true
    ∧ "say /tmp/img.png ok".toList
        = "say ".toList ++ (pathStr tmpImgSegs ++ " ok".toList)
    ∧ preOk "say ".toList = true
    ∧ postOk " ok".toList = true
    ∧ find_matching_files emptyGlob 5 "#any_path#".toList
        "say /tmp/img.png ok".toList = []
    ∧ find_matching_files emptyGlob 5 "#any_path#".toList
        "say /tmp/img.png ok".toList ≠ [pathStr tmpImgSegs] := by
  refine ⟨by decide, by decide, by decide, by decide, by decide, by decide⟩

/-- Witness for the amended C3 at the concrete embedding of `/tmp/img.png`
between words. -/
theorem claim_C3_any_path_extraction_witness :
    preOk "say ".toList = true ∧ goodPath tmpImgSegs = true
    ∧ postOk " ok".toList = true
    ∧ find_matching_files ⟨fun _ _ => []⟩ 2 anyPathDirective
        ("say ".toList ++ (pathStr tmpImgSegs ++ " ok".toList))
      = [pathStr tmpImgSegs] :=
  ⟨by decide, by decide, by decide,
    claim_C3_any_path_extraction (fun _ _ => []) "say ".toList " ok".toList
      tmpImgSegs (by decide) (by decide) (by decide)⟩
